import Mathlib

/- Verification development for jsrundir (src/jsrundir.js): a directory
watch-and-reload engine consisting of a per-directory watcher (RunWatcher),
a FIFO promise-chained notification queue (#notify), and a reload engine
bridging watcher callbacks to the script loader.

The JavaScript source is shallowly embedded: plain objects used as maps
become association lists, but property READS on those objects keep
JavaScript semantics: a read of a key that is not an own property still
finds the members inherited from Object.prototype (e.g. reading key
"toString" on an empty object literal yields the inherited function, which
is truthy).  This matters because the source indexes plain object literals
with externally supplied strings (event names, file names). -/

namespace JsRunDir

/-- Names of the properties every plain object literal inherits from
Object.prototype.  Reading any of these keys on an object created by a
literal yields a truthy value (a function, or for __proto__ the prototype
object itself) even when the object has no own properties. -/
def objectProtoKeys : List String :=
  [("constructor"), ("hasOwnProperty"), ("isPrototypeOf"),
   ("propertyIsEnumerable"), ("toLocaleString"), ("toString"), ("valueOf"),
   ("__defineGetter__"), ("__defineSetter__"), ("__lookupGetter__"),
   ("__lookupSetter__"), ("__proto__")]

/-- Lookup of the first binding of a key in an association list (own
properties of a JS object, in insertion order). -/
def lookupKey {κ α : Type} [DecidableEq κ] : List (κ × α) → κ → Option α
  | [], _ => none
  | (k, v) :: rest, key => if k = key then some v else lookupKey rest key

/-- Remove the first binding of a key from an association list (JS delete
of an own property). -/
def eraseKey {κ α : Type} [DecidableEq κ] : List (κ × α) → κ → List (κ × α)
  | [], _ => []
  | (k, v) :: rest, key => if k = key then rest else (k, v) :: eraseKey rest key

/-- Replace the value of the first binding of a key in an association
list, leaving the list unchanged when the key is absent. -/
def updateKey {κ α : Type} [DecidableEq κ] : List (κ × α) → κ → α → List (κ × α)
  | [], _, _ => []
  | (k, v) :: rest, key, nv =>
      if k = key then (k, nv) :: rest else (k, v) :: updateKey rest key nv

/-- Lexicographic comparison of character lists by code point, matching
the default Array.prototype.sort() string comparison for the names this
program sorts. -/
def lexLe : List Char → List Char → Bool
  | [], _ => true
  | _ :: _, [] => false
  | a :: as, b :: bs =>
      if a.toNat < b.toNat then true
      else if b.toNat < a.toNat then false
      else lexLe as bs

/-- String order used by the watcher to sort directory entry names. -/
def strLe (a b : String) : Bool := lexLe a.data b.data

/-- Insert a name into a sorted list of names (helper of `sortNames`). -/
def insertSorted (n : String) : List String → List String
  | [] => [n]
  | m :: rest => if strLe n m then n :: m :: rest else m :: insertSorted n rest

/-- Ascending name sort, the embedding of `.sort()` on directory entry
names in the source. -/
def sortNames : List String → List String
  | [] => []
  | n :: rest => insertSorted n (sortNames rest)

/-- Does the character list end with the given suffix (embedding of
String.prototype.endsWith on the extension tests)? -/
def endsWithChars (l suf : List Char) : Bool :=
  decide (l.drop (l.length - suf.length) = suf) && decide (suf.length ≤ l.length)

/-- String suffix test used by the file eligibility predicate. -/
def strEndsWith (s suf : String) : Bool := endsWithChars s.data suf.data

/- ===================== Notification queue (#notify, on) =====================

Source (src/jsrundir.js lines 158-198, 306-308): the class holds
`#queue = []` (an array of promise resolvers: the head belongs to the
batch currently allowed to run) and `#handlers = { load: [], unload: [] }`.

`#notify(event, ...args)` pushes a resolver; if the queue was empty the
resolver fires at once.  When the promise resolves, the continuation
resolves the handler list (`typeof event === "function" ? [event] :
this.#handlers[event]`; a falsy result returns early), invokes every
handler inside an individually caught promise, waits for all of them with
Promise.all, then shifts the queue and fires the next resolver.

`on(event, handler)` pushes onto `this.#handlers[event]` whenever that
read is truthy. -/

/-- An observer callback: an identifier plus its behaviour on the batch
arguments (normal return or a thrown error). -/
structure Handler where
  hid : Nat
  run : List String → Except String Unit

/-- The handler registry `#handlers = { load: [], unload: [] }`. -/
structure Registry where
  load : List Handler
  unload : List Handler

/-- The `event` argument of `#notify`: a named event resolved against the
registry, or an ad-hoc callback (`typeof event === "function"`). -/
inductive EventSpec
  | named (e : String)
  | adhoc (h : Handler)

/-- Result of evaluating `typeof event === "function" ? [ event ] :
this.#handlers[event]` followed by the `if (!handlers) return` test. -/
inductive Resolution
  | handlers (hs : List Handler)
  | absent
  | protoVal

/-- Resolve the handler list for a batch.  Reading `#handlers[e]` for a
name other than load/unload yields undefined (falsy) unless the name is an
Object.prototype member, in which case the read is truthy but is not an
array. -/
def resolveEvent (reg : Registry) : EventSpec → Resolution
  | .adhoc h => .handlers [h]
  | .named e =>
      if e = ("load") then .handlers reg.load
      else if e = ("unload") then .handlers reg.unload
      else if e ∈ objectProtoKeys then .protoVal
      else .absent

/-- One queued notification: an identifier, the event argument and the
remaining `...args`. -/
structure Batch where
  bid : Nat
  spec : EventSpec
  args : List String

/-- Observable queue events: a batch starting, a handler being invoked
(with the arguments it received and whether it threw), and a batch
completing (its queue slot being shifted off). -/
inductive Obs
  | begun (bid : Nat)
  | invoke (hid : Nat) (args : List String) (threw : Bool)
  | complete (bid : Nat)
deriving DecidableEq

/-- Did the handler outcome throw? -/
def isErr : Except String Unit → Bool
  | .ok _ => false
  | .error _ => true

/-- Queue state: the pending batches (the head, when present, is the batch
whose resolver has fired and which is currently running), plus a flag
recording that the running batch's continuation threw a TypeError
(`handlers.map` on a non-array), which rejects the chain so the shift
never happens and the queue is permanently stalled. -/
structure NQState where
  queue : List Batch
  stuck : Bool

/-- Effects of a batch reaching the head of the queue: its handler list is
resolved and every handler is invoked synchronously with the batch
arguments, each invocation caught individually (`new Promise(...)` with
try/resolve/reject and a `.catch` that only logs).  Returns the emitted
observations and whether the continuation threw (non-array truthy handler
value). -/
def beginBatch (reg : Registry) (b : Batch) : List Obs × Bool :=
  match resolveEvent reg b.spec with
  | .handlers hs =>
      (Obs.begun b.bid :: hs.map (fun h => Obs.invoke h.hid b.args (isErr (h.run b.args))), false)
  | .absent => ([Obs.begun b.bid], false)
  | .protoVal => ([Obs.begun b.bid], true)

/-- Actions driving the queue: a call to `#notify` enqueuing a batch, or
the settlement of the running batch (all of its handler promises have
settled, so the Promise.all continuation shifts the queue and fires the
next resolver).  A settle on an empty or stalled queue does nothing. -/
inductive NQAct
  | notify (b : Batch)
  | settle

/-- One step of the queue.  `notify` pushes the batch; if the queue was
empty the batch begins at once.  `settle` completes the head batch,
shifts it off and begins the next one. -/
def execAct (reg : Registry) (s : NQState) : NQAct → NQState × List Obs
  | .notify b =>
      match s.queue with
      | [] =>
          if s.stuck then ({ queue := s.queue ++ [b], stuck := s.stuck }, [])
          else
            let p := beginBatch reg b
            ({ queue := [b], stuck := p.2 }, p.1)
      | _ :: _ => ({ queue := s.queue ++ [b], stuck := s.stuck }, [])
  | .settle =>
      if s.stuck then (s, [])
      else
        match s.queue with
        | [] => (s, [])
        | b :: rest =>
            match rest with
            | [] => ({ queue := [], stuck := false }, [Obs.complete b.bid])
            | b' :: _ =>
                let p := beginBatch reg b'
                ({ queue := rest, stuck := p.2 }, Obs.complete b.bid :: p.1)

/-- Run the queue over a list of actions, collecting all observations. -/
def runNQ (reg : Registry) : NQState → List NQAct → NQState × List Obs
  | s, [] => (s, [])
  | s, a :: rest =>
      let p := execAct reg s a
      let q := runNQ reg p.1 rest
      (q.1, p.2 ++ q.2)

/-- The initial (empty, idle) queue. -/
def initNQ : NQState := { queue := [], stuck := false }

/-- The batch identifiers enqueued by a list of actions, in order. -/
def enqueuedIds : List NQAct → List Nat
  | [] => []
  | .notify b :: rest => b.bid :: enqueuedIds rest
  | .settle :: rest => enqueuedIds rest

/-- Keep only the batch lifecycle observations (begins and completes),
dropping the individual handler invocations. -/
def lifecycle : List Obs → List Obs
  | [] => []
  | .begun i :: rest => Obs.begun i :: lifecycle rest
  | .complete i :: rest => Obs.complete i :: lifecycle rest
  | .invoke _ _ _ :: rest => lifecycle rest

/-- The perfectly serialized lifecycle pattern over a list of batch ids:
each batch begins and then completes before the next begins. -/
def altern : List Nat → List Obs
  | [] => []
  | i :: rest => Obs.begun i :: Obs.complete i :: altern rest

/-- Ids of begun batches in an observation list, in order. -/
def begunIds : List Obs → List Nat
  | [] => []
  | .begun i :: rest => i :: begunIds rest
  | _ :: rest => begunIds rest

/-- Ids of completed batches in an observation list, in order. -/
def completedIds : List Obs → List Nat
  | [] => []
  | .complete i :: rest => i :: completedIds rest
  | _ :: rest => completedIds rest

/-- Registration of an observer: `on(event, handler)` pushes onto
`this.#handlers[event]` whenever that property read is truthy.  For load
and unload the read is the (truthy) own array.  For a name inherited from
Object.prototype the read is truthy but has no `push`, so the call throws
a TypeError.  For any other name the read is undefined and the call does
nothing. -/
def onReg (reg : Registry) (event : String) (h : Handler) : Except String Registry :=
  if event = ("load") then .ok { reg with load := reg.load ++ [h] }
  else if event = ("unload") then .ok { reg with unload := reg.unload ++ [h] }
  else if event ∈ objectProtoKeys then .error ("TypeError: push is not a function")
  else .ok reg

/- ===================== Directory watcher (RunWatcher) =====================

Source (src/jsrundir.js lines 43-155).  A watcher owns one directory
(`this.path`), a `files` object literal mapping names to entry infos, an
optional `directories` object literal (created only when the watcher is
constructed with `subdirs = true`), and the native handle `this.watcher`.

Paths are modelled as lists of segments; `path.join(this.path, file)`
becomes appending the child name as one segment. -/

/-- A filesystem path, as a list of segments. -/
abbrev FsPath := List String

/-- Result of a successful `fs.statSync` on a child, reduced to what
`fileInfo` reads from it. -/
inductive StatKind
  | file
  | directory
  | otherKind
deriving DecidableEq

/-- An entry info as built by `fileInfo(path, name, stat)`: a missing stat
(statSync with throwIfNoEntry returning undefined) yields both flags
false. -/
structure Info where
  path : FsPath
  name : String
  isFile : Bool
  isDirectory : Bool
deriving DecidableEq

/-- The embedding of `fileInfo`. -/
def fileInfo (path : FsPath) (name : String) (stat : Option StatKind) : Info :=
  { path := path
    name := name
    isFile := match stat with
      | some .file => true
      | _ => false
    isDirectory := match stat with
      | some .directory => true
      | _ => false }

/-- The value produced by reading a child name on the `files` or
`directories` object literal: an own entry info, or a member inherited
from Object.prototype. -/
inductive JVal
  | obj (i : Info)
  | protoFn (k : String)
deriving DecidableEq

/-- Truthiness-respecting read of `obj[name]` on a files/directories
object: own property first, then the inherited Object.prototype member
(truthy, hence `some`); any other absent key reads as undefined. -/
def jsGet (m : List (String × Info)) (k : String) : Option JVal :=
  match lookupKey m k with
  | some i => some (.obj i)
  | none => if k ∈ objectProtoKeys then some (.protoFn k) else none

/-- The `name` property of the value read, used by `delete
this.files[info.name]`: an own entry carries its recorded name; an
inherited function's `name` property is its own key, except `__proto__`
whose read is the prototype object, whose `name` reads as undefined and
stringifies to the key "undefined". -/
def jvalName : JVal → String
  | .obj i => i.name
  | .protoFn k => if k = ("__proto__") then ("undefined") else k

/-- Watcher state: the watched path, the `files` map, the optional
`directories` map (present exactly on recursive watchers) and whether the
native handle is installed. -/
structure WState where
  wpath : FsPath
  files : List (String × Info)
  dirs : Option (List (String × Info))
  watching : Bool
deriving DecidableEq

/-- The RunWatcher constructor: empty maps, `directories` created only
when `subdirs` is true, no native handle. -/
def mkRunWatcher (target : FsPath) (subdirs : Bool) : WState :=
  { wpath := target
    files := []
    dirs := if subdirs then some [] else none
    watching := false }

/-- The `checkFile` eligibility predicate: name not hidden, recognized
extension, not the engine's own file (`__realname`, here `rn`), and the
read `this.files[name]` falsy. -/
def checkFile (rn : FsPath) (s : WState) (path : FsPath) (name : String) : Bool :=
  decide (name.data.head? ≠ some ('.')) &&
  (strEndsWith name (".js") || strEndsWith name (".json")) &&
  decide (path ≠ rn) &&
  (jsGet s.files name).isNone

/-- The `checkDirectory` eligibility predicate: name not hidden,
`this.directories` exists, and the read `this.directories[name]` falsy. -/
def checkDirectory (s : WState) (name : String) : Bool :=
  decide (name.data.head? ≠ some ('.')) &&
  (match s.dirs with
   | some ds => (jsGet ds name).isNone
   | none => false)

/-- The add/remove callbacks invoked by a watcher, as recorded actions.
Removals carry the raw value that was read from the map (an inherited
Object.prototype member can be passed when the child name collides with
one). -/
inductive Action
  | added (i : Info)
  | removed (v : JVal)
deriving DecidableEq

/-- `fileAdded(info)`: gate on `checkFile`; when eligible, record the
entry under its name and call the add callback. -/
def fileAdded (rn : FsPath) (s : WState) (i : Info) : WState × List Action :=
  if checkFile rn s i.path i.name then
    ({ s with files := s.files ++ [(i.name, i)] }, [.added i])
  else (s, [])

/-- `fileRemoved(info)`: delete `this.files[info.name]` and call the
remove callback with the value. -/
def fileRemoved (s : WState) (v : JVal) : WState × List Action :=
  ({ s with files := eraseKey s.files (jvalName v) }, [.removed v])

/-- `directoryAdded(info)`: gate on `checkDirectory`; when eligible,
record the entry and call the add callback. -/
def directoryAdded (s : WState) (i : Info) : WState × List Action :=
  if checkDirectory s i.name then
    ({ s with dirs := s.dirs.map (fun ds => ds ++ [(i.name, i)]) }, [.added i])
  else (s, [])

/-- `directoryRemoved(info)`: delete `this.directories[info.name]` and
call the remove callback with the value. -/
def directoryRemoved (s : WState) (v : JVal) : WState × List Action :=
  ({ s with dirs := s.dirs.map (fun ds => eraseKey ds (jvalName v)) }, [.removed v])

/-- The removal phase of the native watch callback (src/jsrundir.js
lines 100-121): given the child name and its fresh stat, if
`this.files[file]` reads truthy, `fileRemoved` it; else if
`this.directories` exists, `this.directories[file]` reads truthy and the
fresh stat is not a directory, `directoryRemoved` it.  The full callback
(`reconcile` below) continues with the re-add phase and ignores the
native event kind except for logging:
first, if `this.files[file]` reads truthy, `fileRemoved` it;
else if `this.directories` exists, `this.directories[file]` reads truthy
and the fresh stat is not a directory, `directoryRemoved` it;
then, if the fresh stat is a file, attempt `fileAdded`;
else if it is a directory, attempt `directoryAdded`. -/
def reconcilePre (s : WState) (name : String) (stat : Option StatKind) :
    WState × List Action :=
  let info := fileInfo (s.wpath ++ [name]) name stat
  match jsGet s.files name with
  | some v => fileRemoved s v
  | none =>
      match s.dirs with
      | some ds =>
          match jsGet ds name with
          | some v => if info.isDirectory = false then directoryRemoved s v else (s, [])
          | none => (s, [])
      | none => (s, [])

/-- The re-add phase (steps 3-4 of the table) applied after the removal
phase, assembling the full native-callback reconciliation. -/
def reconcile (rn : FsPath) (s : WState) (ev : String) (name : String)
    (stat : Option StatKind) : WState × List Action :=
  let _ := ev
  let info := fileInfo (s.wpath ++ [name]) name stat
  let p := reconcilePre s name stat
  let q :=
    if info.isFile then fileAdded rn p.1 info
    else if info.isDirectory then directoryAdded p.1 info
    else (p.1, [])
  (q.1, p.2 ++ q.2)

/-- Observable effects of `watch` and `stop`: installing the native
handle, closing it, and the add/remove callback invocations. -/
inductive WEffect
  | installHandle
  | closeHandle
  | act (a : Action)
deriving DecidableEq

/-- Extract the callback actions from an effect trace. -/
def actsOf : List WEffect → List Action
  | [] => []
  | .act a :: rest => a :: actsOf rest
  | _ :: rest => actsOf rest

/-- First scan pass: `for (const info of files) if (info.isFile)
this.fileAdded(info)`. -/
def scanFiles (rn : FsPath) (s : WState) : List Info → WState × List Action
  | [] => (s, [])
  | i :: rest =>
      let p := if i.isFile then fileAdded rn s i else (s, [])
      let q := scanFiles rn p.1 rest
      (q.1, p.2 ++ q.2)

/-- Second scan pass: `for (const info of files) if (info.isDirectory)
this.directoryAdded(info)`. -/
def scanDirs (s : WState) : List Info → WState × List Action
  | [] => (s, [])
  | i :: rest =>
      let p := if i.isDirectory then directoryAdded s i else (s, [])
      let q := scanDirs p.1 rest
      (q.1, p.2 ++ q.2)

/-- The sorted, stat-ed directory listing built by the initial scan:
`fs.readdirSync(this.path).sort().map(...)`. -/
def scanInfos (p : FsPath) (names : List String) (stat : String → Option StatKind) :
    List Info :=
  (sortNames names).map (fun n => fileInfo (p ++ [n]) n (stat n))

/-- `watch(add, remove)` (src/jsrundir.js lines 92-135): throw if a
handle already exists; otherwise install the native handle (`this.watcher
= fs.watch(...)`), then read and sort the directory listing, stat each
name, and run the file pass followed by the directory pass.  The handle
installation is the first effect of the trace because `fs.watch` is
called before `readdirSync` in the source. -/
def watch (rn : FsPath) (s : WState) (names : List String)
    (stat : String → Option StatKind) : Except String (WState × List WEffect) :=
  if s.watching then .error ("Already watching")
  else
    let s0 := { s with watching := true }
    let infos := scanInfos s.wpath names stat
    let p := scanFiles rn s0 infos
    let q := scanDirs p.1 infos
    .ok (q.1, .installHandle :: (p.2.map .act ++ q.2.map .act))

/-- Teardown pass over the directories map: for each key of the
descending-sorted key list, `this.directoryRemoved(this.directories[dir])`. -/
def removeDirsFold (s : WState) : List String → WState × List Action
  | [] => (s, [])
  | k :: rest =>
      let p :=
        match s.dirs with
        | some ds =>
            match jsGet ds k with
            | some v => directoryRemoved s v
            | none => (s, [])
        | none => (s, [])
      let q := removeDirsFold p.1 rest
      (q.1, p.2 ++ q.2)

/-- Teardown pass over the files map: for each key of the
descending-sorted key list, `this.fileRemoved(this.files[file])`. -/
def removeFilesFold (s : WState) : List String → WState × List Action
  | [] => (s, [])
  | k :: rest =>
      let p :=
        match jsGet s.files k with
        | some v => fileRemoved s v
        | none => (s, [])
      let q := removeFilesFold p.1 rest
      (q.1, p.2 ++ q.2)

/-- `stop()` (src/jsrundir.js lines 137-154): throw if no handle exists;
close the handle first, then remove every tracked subdirectory in
descending sorted key order, then every tracked file in descending sorted
key order. -/
def stop (s : WState) : Except String (WState × List WEffect) :=
  if s.watching = false then .error ("Not watching")
  else
    let s0 := { s with watching := false }
    let p :=
      match s0.dirs with
      | none => (s0, [])
      | some ds => removeDirsFold s0 ((sortNames (ds.map Prod.fst)).reverse)
    let q := removeFilesFold p.1 ((sortNames (p.1.files.map Prod.fst)).reverse)
    .ok (q.1, .closeHandle :: (p.2.map .act ++ q.2.map .act))

/-- Modelled from the claim text of C2 (the spec's reconciliation
decision table, §4.1): the same four-step table, but with "currently
tracked" meaning an actual entry of the map (an own property), not a
truthy property read.  The adds are gated by the same eligibility
predicates the code uses. -/
def reconcileTable (rn : FsPath) (s : WState) (name : String)
    (stat : Option StatKind) : WState × List Action :=
  let target := s.wpath ++ [name]
  let info := fileInfo target name stat
  let p :=
    match lookupKey s.files name with
    | some i => fileRemoved s (.obj i)
    | none =>
        match s.dirs with
        | some ds =>
            match lookupKey ds name with
            | some i => if info.isDirectory = false then directoryRemoved s (.obj i) else (s, [])
            | none => (s, [])
        | none => (s, [])
  let q :=
    if info.isFile then fileAdded rn p.1 info
    else if info.isDirectory then directoryAdded p.1 info
    else (p.1, [])
  (q.1, p.2 ++ q.2)

instance {ε α : Type} [DecidableEq ε] [DecidableEq α] : DecidableEq (Except ε α) := fun a b =>
  match a, b with
  | .error e, .error f =>
      if h : e = f then isTrue (by rw [h]) else isFalse (fun hc => h (Except.error.inj hc))
  | .error _, .ok _ => isFalse (fun hc => Except.noConfusion hc)
  | .ok _, .error _ => isFalse (fun hc => Except.noConfusion hc)
  | .ok x, .ok y =>
      if h : x = y then isTrue (by rw [h]) else isFalse (fun hc => h (Except.ok.inj hc))

/-- A concrete resolved path standing for the engine's own entry point
(`__realname`), used by the concrete counterexamples. -/
def rnX : FsPath := [("app"), ("jsrundir.js")]

/- ===================== Claim C9 ===================== -/

/-- C9 counterexample: `on("toString", handler)` is not a silent no-op.
The read `this.#handlers["toString"]` finds the function inherited from
Object.prototype, which is truthy, so the code calls `.push` on it and
throws a TypeError.  This refutes the claim that for every event name
other than load/unload the call never throws. -/
theorem c9_counterexample :
    onReg { load := [], unload := [] } ("toString") ⟨0, fun _ => .ok ()⟩ =
      .error ("TypeError: push is not a function") := by
  rfl

/-- C9 amended: `on(event, handler)` appends to the load list for "load"
and to the unload list for "unload" (preserving insertion order); for any
other event name that does not collide with a member of Object.prototype
the call returns with the registry unchanged; for an event name that is
an Object.prototype member the call throws a TypeError. -/
theorem c9_on_registration (reg : Registry) (ev : String) (h : Handler) :
    (ev = ("load") → onReg reg ev h = .ok { reg with load := reg.load ++ [h] }) ∧
    (ev = ("unload") → onReg reg ev h = .ok { reg with unload := reg.unload ++ [h] }) ∧
    (ev ≠ ("load") → ev ≠ ("unload") → ev ∉ objectProtoKeys → onReg reg ev h = .ok reg) ∧
    (ev ≠ ("load") → ev ≠ ("unload") → ev ∈ objectProtoKeys →
      onReg reg ev h = .error ("TypeError: push is not a function")) := by
  refine ⟨fun h1 => ?_, fun h2 => ?_, fun h1 h2 h3 => ?_, fun h1 h2 h3 => ?_⟩
  · subst h1; rfl
  · subst h2; rfl
  · simp [onReg, h1, h2, h3]
  · simp [onReg, h1, h2, h3]

/-- C9 witness: the amended statement instantiated at concrete inputs. -/
theorem c9_witness :
    onReg { load := [], unload := [] } ("load") ⟨7, fun _ => .ok ()⟩ =
        .ok { load := [⟨7, fun _ => .ok ()⟩], unload := [] } ∧
      onReg { load := [], unload := [] } ("resize") ⟨7, fun _ => .ok ()⟩ =
        .ok { load := [], unload := [] } := by
  exact ⟨(c9_on_registration _ _ _).1 rfl,
    (c9_on_registration { load := [], unload := [] } ("resize") _).2.2.1
      (by decide) (by decide) (by decide)⟩

/- ===================== Claim C2 ===================== -/

/-- C2 counterexample: a native callback for the untracked child name
"toString" (with the child absent on disk) does not follow the claimed
decision table.  The table produces no call, but the code reads
`this.files["toString"]` as the truthy inherited Object.prototype member
and calls the remove callback with it. -/
theorem c2_counterexample :
    (reconcile rnX (mkRunWatcher [("r")] true) ("rename") ("toString") none).2 =
        [Action.removed (JVal.protoFn ("toString"))] ∧
      (reconcileTable rnX (mkRunWatcher [("r")] true) ("toString") none).2 = [] ∧
      (reconcile rnX (mkRunWatcher [("r")] true) ("rename") ("toString") none).2 ≠
        (reconcileTable rnX (mkRunWatcher [("r")] true) ("toString") none).2 := by
  exact ⟨by decide, by decide, by decide⟩

/-- When a key is not an Object.prototype member, the JavaScript property
read coincides with the own-property lookup. -/
theorem jsGet_eq_lookupKey (m : List (String × Info)) (k : String)
    (h : k ∉ objectProtoKeys) : jsGet m k = (lookupKey m k).map JVal.obj := by
  unfold jsGet
  cases lookupKey m k with
  | none => simp [h]
  | some i => rfl

/-- C2 amended: for every child name that does not collide with a member
of Object.prototype, reconciliation follows the claimed decision table
exactly (same resulting tracked state and same sequence of remove/add
calls), and is independent of the reported native event kind.  For a
colliding name the code departs from the table as shown by the
counterexample. -/
theorem c2_reconcile_follows_table (rn : FsPath) (s : WState) (ev ev' name : String)
    (stat : Option StatKind) (h : name ∉ objectProtoKeys) :
    reconcile rn s ev name stat = reconcileTable rn s name stat ∧
      reconcile rn s ev name stat = reconcile rn s ev' name stat := by
  constructor
  · unfold reconcile reconcilePre reconcileTable
    simp only [jsGet_eq_lookupKey _ _ h]
    rcases hf : lookupKey s.files name with _ | i
    · rcases hd : s.dirs with _ | ds
      · simp [hf, hd]
      · rcases hds : lookupKey ds name with _ | j <;> simp [hf, hd, hds]
    · simp [hf]
  · rfl

/-- C2 witness: the amended statement instantiated at a concrete tracked
file and a rename-style stat change. -/
theorem c2_witness :
    reconcile rnX
        { wpath := [("r")],
          files := [(("a.js"), fileInfo [("r"), ("a.js")] ("a.js") (some .file))],
          dirs := some [], watching := true } ("rename") ("a.js") none =
      reconcileTable rnX
        { wpath := [("r")],
          files := [(("a.js"), fileInfo [("r"), ("a.js")] ("a.js") (some .file))],
          dirs := some [], watching := true } ("a.js") none := by
  exact (c2_reconcile_follows_table rnX _ ("rename") ("change") ("a.js") none (by decide)).1

/- ===================== Claim C7 ===================== -/

/-- C7 counterexample: a native callback for a child that is tracked as a
directory and whose fresh stat still reports a directory produces no
remove and no add at all: the removal branch requires the stat to no
longer be a directory, and the re-add is rejected by `checkDirectory`
because the name is still tracked.  This refutes the claim that an
already-tracked name with an unchanged kind always produces a
remove-then-add pair whether it is a file or a directory. -/
theorem c7_counterexample :
    (reconcile rnX
        { wpath := [("r")],
          files := [],
          dirs := some [(("sub"), fileInfo [("r"), ("sub")] ("sub") (some .directory))],
          watching := true } ("rename") ("sub") (some .directory)).2 = [] := by
  decide

/-- A key that is not among the keys of an association list looks up to
nothing. -/
theorem lookupKey_eq_none_of_not_mem {κ α : Type} [DecidableEq κ] (m : List (κ × α)) (k : κ)
    (h : k ∉ m.map Prod.fst) : lookupKey m k = none := by
  induction m with
  | nil => rfl
  | cons p rest ih =>
      have hpk : p.1 ≠ k := by
        intro he
        exact h (by simp [List.mem_map]; exact Or.inl he.symm)
      simp only [lookupKey, if_neg hpk]
      exact ih (fun hm => h (by simp [List.mem_map] at hm ⊢; exact Or.inr hm))

/-- After erasing a key from an association list with distinct keys, the
own-property lookup of that key fails. -/
theorem lookupKey_eraseKey_self {κ α : Type} [DecidableEq κ] (m : List (κ × α)) (k : κ)
    (h : (m.map Prod.fst).Nodup) : lookupKey (eraseKey m k) k = none := by
  induction m with
  | nil => rfl
  | cons p rest ih =>
      obtain ⟨hk, hrest⟩ := List.nodup_cons.mp h
      by_cases hpk : p.1 = k
      · simp only [eraseKey, if_pos hpk]
        exact lookupKey_eq_none_of_not_mem rest k (by rw [← hpk]; exact hk)
      · simp only [eraseKey, if_neg hpk, lookupKey, if_neg hpk]
        exact ih hrest

/-- C7 amended: a notification for an already-tracked name with an
unchanged kind produces a spurious remove-then-add pair when the tracked
entry is a file; when the tracked entry is a directory that is still a
directory, reconciliation produces no call at all (the removal branch
requires the kind to have changed and the re-add is rejected because the
name is still tracked). -/
theorem c7_tracked_same_kind (rn : FsPath) (s : WState) (ev name : String) :
    (∀ old, lookupKey s.files name = some old → old.name = name →
      (s.files.map Prod.fst).Nodup → name ∉ objectProtoKeys →
      name.data.head? ≠ some ('.') →
      (strEndsWith name (".js") = true ∨ strEndsWith name (".json") = true) →
      s.wpath ++ [name] ≠ rn →
      (reconcile rn s ev name (some .file)).2 =
        [Action.removed (JVal.obj old),
         Action.added (fileInfo (s.wpath ++ [name]) name (some .file))]) ∧
    (∀ ds old, s.dirs = some ds → lookupKey s.files name = none →
      name ∉ objectProtoKeys → lookupKey ds name = some old →
      (reconcile rn s ev name (some .directory)).2 = []) := by
  constructor
  · intro old hlk hname hnd hproto hhid hext hpath
    have herase : jsGet (eraseKey s.files name) name = none := by
      rw [jsGet_eq_lookupKey _ _ hproto, lookupKey_eraseKey_self s.files name hnd]
      rfl
    unfold reconcile reconcilePre
    simp only [jsGet_eq_lookupKey _ _ hproto, hlk, Option.map_some']
    simp only [fileRemoved, fileAdded, checkFile, jvalName, hname, fileInfo]
    simp only [herase]
    rcases hext with he | he <;> simp only [strEndsWith] at he <;>
      simp [strEndsWith, hhid, hpath, he, herase]
  · intro ds old hdirs hnof hproto hlkd
    unfold reconcile reconcilePre
    simp only [jsGet_eq_lookupKey _ _ hproto, hnof, Option.map_none', hdirs, hlkd,
      Option.map_some', fileInfo]
    simp [directoryAdded, checkDirectory, hdirs, jsGet_eq_lookupKey _ _ hproto, hlkd]

/-- C7 witness: both halves of the amended statement instantiated at
concrete tracked entries. -/
theorem c7_witness :
    (reconcile rnX
        { wpath := [("r")],
          files := [(("a.js"), fileInfo [("r"), ("a.js")] ("a.js") (some .file))],
          dirs := some [], watching := true } ("change") ("a.js") (some .file)).2 =
      [Action.removed (JVal.obj (fileInfo [("r"), ("a.js")] ("a.js") (some .file))),
       Action.added (fileInfo [("r"), ("a.js")] ("a.js") (some .file))] ∧
    (reconcile rnX
        { wpath := [("r")],
          files := [],
          dirs := some [(("sub"), fileInfo [("r"), ("sub")] ("sub") (some .directory))],
          watching := true } ("change") ("sub") (some .directory)).2 = [] := by
  constructor
  · exact (c7_tracked_same_kind rnX _ ("change") ("a.js")).1
      (fileInfo [("r"), ("a.js")] ("a.js") (some .file)) (by decide) (by decide)
      (by decide) (by decide) (by decide) (Or.inl (by decide)) (by decide)
  · exact (c7_tracked_same_kind rnX _ ("change") ("sub")).2
      [(("sub"), fileInfo [("r"), ("sub")] ("sub") (some .directory))]
      (fileInfo [("r"), ("sub")] ("sub") (some .directory)) rfl (by decide)
      (by decide) (by decide)

/- ===================== Claim C3 ===================== -/

/-- Is the effect an add callback invocation? -/
def isAddEff : WEffect → Bool
  | .act (.added _) => true
  | _ => false

/-- The property claimed by C3 of a watch effect trace: every add
produced by the initial scan happens strictly before the native handle is
installed (no add effect at or after the installation). -/
def scanAddsPrecedeHandle (effs : List WEffect) : Prop :=
  ∀ e ∈ effs.dropWhile (fun x => decide (x ≠ WEffect.installHandle)), isAddEff e = false

instance (effs : List WEffect) : Decidable (scanAddsPrecedeHandle effs) := by
  unfold scanAddsPrecedeHandle
  infer_instance

/-- C3 counterexample: on a fresh recursive watcher over a directory
containing the single file a.js, `watch` installs the native handle as
its very first effect — `fs.watch` is called before `readdirSync` in the
source — and the scan's add callback for a.js happens after it.  This
refutes the claim that the handle is installed only after the initial
scan has completed. -/
theorem c3_counterexample :
    watch rnX (mkRunWatcher [("r")] true) [("a.js")] (fun _ => some .file) =
        .ok ({ wpath := [("r")],
               files := [(("a.js"), fileInfo [("r"), ("a.js")] ("a.js") (some .file))],
               dirs := some [], watching := true },
             [WEffect.installHandle,
              WEffect.act (.added (fileInfo [("r"), ("a.js")] ("a.js") (some .file)))]) ∧
      ¬ scanAddsPrecedeHandle
          [WEffect.installHandle,
           WEffect.act (.added (fileInfo [("r"), ("a.js")] ("a.js") (some .file)))] := by
  exact ⟨by decide, by decide⟩

/-- `fileAdded` does not touch the native-handle flag. -/
theorem fileAdded_watching (rn : FsPath) (s : WState) (i : Info) :
    (fileAdded rn s i).1.watching = s.watching := by
  unfold fileAdded; split <;> rfl

/-- `directoryAdded` does not touch the native-handle flag. -/
theorem directoryAdded_watching (s : WState) (i : Info) :
    (directoryAdded s i).1.watching = s.watching := by
  unfold directoryAdded; split <;> rfl

/-- The file scan pass does not touch the native-handle flag. -/
theorem scanFiles_watching (rn : FsPath) (l : List Info) :
    ∀ s, (scanFiles rn s l).1.watching = s.watching := by
  induction l with
  | nil => intro s; rfl
  | cons i rest ih =>
      intro s
      unfold scanFiles
      rw [ih]
      by_cases hf : i.isFile = true <;> simp [hf, fileAdded_watching]

/-- The directory scan pass does not touch the native-handle flag. -/
theorem scanDirs_watching (l : List Info) :
    ∀ s, (scanDirs s l).1.watching = s.watching := by
  induction l with
  | nil => intro s; rfl
  | cons i rest ih =>
      intro s
      unfold scanDirs
      rw [ih]
      by_cases hd : i.isDirectory = true <;> simp [hd, directoryAdded_watching]

/-- C3 amended: `watch` on a watcher without a handle succeeds and
installs the native handle FIRST — the installation is the head of the
effect trace, before every add produced by the initial scan — leaving the
handle installed. -/
theorem c3_handle_installed_first (rn : FsPath) (s : WState) (names : List String)
    (stat : String → Option StatKind) (h : s.watching = false) :
    ∃ w' effs, watch rn s names stat = .ok (w', effs) ∧
      effs.head? = some WEffect.installHandle ∧ w'.watching = true := by
  unfold watch
  rw [h]
  simp only [Bool.false_eq_true, if_false]
  refine ⟨_, _, rfl, rfl, ?_⟩
  rw [scanDirs_watching, scanFiles_watching]

/-- C3 witness: the amended statement at a concrete fresh watcher. -/
theorem c3_witness :
    ∃ w' effs,
      watch rnX (mkRunWatcher [("r")] true) [("a.js")] (fun _ => some .file) =
          .ok (w', effs) ∧
        effs.head? = some WEffect.installHandle ∧ w'.watching = true :=
  c3_handle_installed_first rnX (mkRunWatcher [("r")] true) [("a.js")]
    (fun _ => some .file) (by decide)

/- ===================== Claim C1 ===================== -/

/-- The empty list is a prefix of every list. -/
theorem pfx_nil {α : Type} (l : List α) : [] <+: l := ⟨l, rfl⟩

/-- Prefixes are preserved by consing the same head. -/
theorem pfx_cons {α : Type} (a : α) {l1 l2 : List α} (h : l1 <+: l2) :
    a :: l1 <+: a :: l2 := by
  obtain ⟨t, ht⟩ := h
  exact ⟨t, by rw [← ht]; rfl⟩

/-- `lifecycle` distributes over append. -/
theorem lifecycle_append (l1 l2 : List Obs) :
    lifecycle (l1 ++ l2) = lifecycle l1 ++ lifecycle l2 := by
  induction l1 with
  | nil => rfl
  | cons o rest ih => cases o <;> simp [lifecycle, ih]

/-- Handler invocations carry no lifecycle observations. -/
theorem lifecycle_invokes (l : List Handler) (args : List String) :
    lifecycle (l.map (fun h => Obs.invoke h.hid args (isErr (h.run args)))) = [] := by
  induction l with
  | nil => rfl
  | cons h rest ih => simp [lifecycle, ih]

/-- A batch reaching the head of the queue emits exactly one lifecycle
observation: its begin. -/
theorem lifecycle_beginBatch (reg : Registry) (b : Batch) :
    lifecycle (beginBatch reg b).1 = [Obs.begun b.bid] := by
  unfold beginBatch
  cases resolveEvent reg b.spec with
  | handlers hs => simp [lifecycle, lifecycle_invokes]
  | absent => rfl
  | protoVal => rfl

/-- The serialized lifecycle pattern still expected from a mid-flight
queue state: if a batch is at the head (hence already begun), its
completion comes first, then the full begin/complete alternation of the
remaining queued batches followed by the batches yet to be enqueued. -/
def expected (s : NQState) (acts : List NQAct) : List Obs :=
  match s.queue with
  | [] => altern (enqueuedIds acts)
  | b :: t => Obs.complete b.bid :: altern (t.map Batch.bid ++ enqueuedIds acts)

/-- Main queue invariant: starting from any state whose head batch (if
stalled) exists, the lifecycle observations of any action sequence form a
prefix of the serialized pattern `expected`. -/
theorem runNQ_lifecycle_pfx (reg : Registry) :
    ∀ (acts : List NQAct) (s : NQState), (s.stuck = true → s.queue ≠ []) →
      lifecycle (runNQ reg s acts).2 <+: expected s acts := by
  intro acts
  induction acts with
  | nil => intro s _; exact pfx_nil _
  | cons a rest ih =>
      intro s hst
      cases a with
      | notify b =>
          rcases hq : s.queue with _ | ⟨b0, t⟩
          · rcases hstu : s.stuck with _ | _
            · have h1 : runNQ reg s (.notify b :: rest) =
                  ((runNQ reg { queue := [b], stuck := (beginBatch reg b).2 } rest).1,
                    (beginBatch reg b).1 ++
                      (runNQ reg { queue := [b], stuck := (beginBatch reg b).2 } rest).2) := by
                simp [runNQ, execAct, hq, hstu]
              rw [h1]
              simp only [lifecycle_append, lifecycle_beginBatch]
              have h2 := ih { queue := [b], stuck := (beginBatch reg b).2 }
                (fun _ => by simp)
              unfold expected at h2 ⊢
              simp only [hq]
              simp only [List.map_nil, List.nil_append] at h2
              simp only [enqueuedIds, altern]
              exact pfx_cons _ h2
            · exact absurd hq (hst hstu)
          · have h1 : runNQ reg s (.notify b :: rest) =
                ((runNQ reg { queue := s.queue ++ [b], stuck := s.stuck } rest).1,
                  [] ++ (runNQ reg { queue := s.queue ++ [b], stuck := s.stuck } rest).2) := by
              simp [runNQ, execAct, hq]
            rw [h1]
            simp only [List.nil_append]
            have h2 := ih { queue := s.queue ++ [b], stuck := s.stuck }
              (fun _ => by simp [hq])
            unfold expected at h2 ⊢
            simp only [hq, List.cons_append] at h2 ⊢
            simp only [List.map_append, List.map_cons, List.map_nil, List.append_assoc,
              List.nil_append, List.singleton_append] at h2 ⊢
            simp only [enqueuedIds]
            exact h2
      | settle =>
          rcases hstu : s.stuck with _ | _
          · rcases hq : s.queue with _ | ⟨b0, t⟩
            · have h1 : runNQ reg s (.settle :: rest) =
                  ((runNQ reg s rest).1, [] ++ (runNQ reg s rest).2) := by
                simp [runNQ, execAct, hstu, hq]
              rw [h1]
              simp only [List.nil_append]
              have h2 := ih s (fun hc => absurd hc (by simp [hstu]))
              unfold expected at h2 ⊢
              simp only [hq] at h2 ⊢
              exact h2
            · rcases ht : t with _ | ⟨b1, t'⟩
              · have h1 : runNQ reg s (.settle :: rest) =
                    ((runNQ reg { queue := [], stuck := false } rest).1,
                      [Obs.complete b0.bid] ++
                        (runNQ reg { queue := [], stuck := false } rest).2) := by
                  simp [runNQ, execAct, hstu, hq, ht]
                rw [h1]
                simp only [lifecycle_append]
                have h2 := ih { queue := [], stuck := false } (fun hc => by simp at hc)
                unfold expected at h2 ⊢
                simp only [hq, ht, List.map_nil, List.nil_append]
                show Obs.complete b0.bid :: _ <+: Obs.complete b0.bid :: altern (enqueuedIds rest)
                exact pfx_cons _ h2
              · have h1 : runNQ reg s (.settle :: rest) =
                    ((runNQ reg { queue := t, stuck := (beginBatch reg b1).2 } rest).1,
                      (Obs.complete b0.bid :: (beginBatch reg b1).1) ++
                        (runNQ reg { queue := t, stuck := (beginBatch reg b1).2 } rest).2) := by
                  simp [runNQ, execAct, hstu, hq, ht]
                rw [h1]
                have h2 := ih { queue := t, stuck := (beginBatch reg b1).2 }
                  (fun _ => by simp [ht])
                unfold expected at h2 ⊢
                simp only [hq, ht] at h2 ⊢
                have h3 : lifecycle ((Obs.complete b0.bid :: (beginBatch reg b1).1) ++
                    (runNQ reg { queue := b1 :: t', stuck := (beginBatch reg b1).2 } rest).2) =
                    Obs.complete b0.bid :: Obs.begun b1.bid ::
                      lifecycle (runNQ reg { queue := b1 :: t', stuck := (beginBatch reg b1).2 } rest).2 := by
                  simp [lifecycle, lifecycle_append, lifecycle_beginBatch]
                rw [h3]
                simp only [List.map_cons, List.cons_append, altern]
                exact pfx_cons _ (pfx_cons _ h2)
          · have h1 : runNQ reg s (.settle :: rest) =
                ((runNQ reg s rest).1, [] ++ (runNQ reg s rest).2) := by
              simp [runNQ, execAct, hstu]
            rw [h1]
            simp only [List.nil_append]
            exact ih s hst

/-- In every prefix of a serialized alternation: completions are a prefix
of begins, begins are a prefix of the id sequence, and at most one begun
batch is uncompleted. -/
theorem altern_pfx_props :
    ∀ (ids : List Nat) (p : List Obs), p <+: altern ids →
      completedIds p <+: begunIds p ∧ begunIds p <+: ids ∧
        (begunIds p).length ≤ (completedIds p).length + 1 := by
  intro ids
  induction ids with
  | nil =>
      intro p hp
      obtain ⟨t, ht⟩ := hp
      have hpn : p = [] := (List.append_eq_nil.mp ht).1
      subst hpn
      exact ⟨pfx_nil _, pfx_nil _, by simp [begunIds, completedIds]⟩
  | cons i ids' ih =>
      intro p hp
      obtain ⟨t, ht⟩ := hp
      match p with
      | [] => exact ⟨pfx_nil _, pfx_nil _, by simp [begunIds, completedIds]⟩
      | o :: p' =>
          simp only [altern, List.cons_append] at ht
          obtain ⟨ho, ht'⟩ := List.cons.inj ht
          subst ho
          match p' with
          | [] =>
              refine ⟨pfx_nil _, ?_, by simp [begunIds, completedIds]⟩
              exact pfx_cons i (pfx_nil _)
          | o' :: p'' =>
              simp only [List.cons_append] at ht'
              obtain ⟨ho', ht''⟩ := List.cons.inj ht'
              subst ho'
              obtain ⟨hc, hb, hl⟩ := ih p'' ⟨t, ht''⟩
              refine ⟨?_, ?_, ?_⟩
              · simpa [begunIds, completedIds] using pfx_cons i hc
              · simpa [begunIds] using pfx_cons i hb
              · simp only [begunIds, completedIds, List.length_cons]
                omega

/-- C1: at most one batch runs at any instant and batches begin and
complete in exactly the enqueue order.  The lifecycle observations of any
sequence of notify/settle actions from the idle queue form a prefix of
the perfect begin/complete alternation over the enqueued batch ids; in
particular (second part) in every observation prefix the completed ids
are a prefix of the begun ids, the begun ids are a prefix of the enqueued
ids, and at most one begun batch is not yet completed, so a later batch
never begins before every earlier batch has fully completed. -/
theorem c1_queue_fifo (reg : Registry) (acts : List NQAct) :
    lifecycle (runNQ reg initNQ acts).2 <+: altern (enqueuedIds acts) ∧
      (∀ p, p <+: lifecycle (runNQ reg initNQ acts).2 →
        completedIds p <+: begunIds p ∧ begunIds p <+: enqueuedIds acts ∧
          (begunIds p).length ≤ (completedIds p).length + 1) := by
  have hmain := runNQ_lifecycle_pfx reg acts initNQ (fun h => absurd h (by decide))
  have hexp : expected initNQ acts = altern (enqueuedIds acts) := rfl
  rw [hexp] at hmain
  exact ⟨hmain, fun p hp => altern_pfx_props _ p (hp.trans hmain)⟩

/-- C1 witness: the statement instantiated on a concrete two-batch run,
with the inner hypothesis discharged at the concrete prefix consisting of
the first batch's begin. -/
theorem c1_witness :
    lifecycle (runNQ { load := [], unload := [] } initNQ
        [.notify ⟨1, .named ("load"), []⟩, .notify ⟨2, .named ("unload"), []⟩,
         .settle, .settle]).2 <+:
      altern (enqueuedIds
        [NQAct.notify ⟨1, .named ("load"), []⟩, .notify ⟨2, .named ("unload"), []⟩,
         .settle, .settle]) ∧
      completedIds [Obs.begun 1] <+: begunIds [Obs.begun 1] := by
  refine ⟨(c1_queue_fifo { load := [], unload := [] } _).1, ?_⟩
  exact ((c1_queue_fifo { load := [], unload := [] }
      [.notify ⟨1, .named ("load"), []⟩, .notify ⟨2, .named ("unload"), []⟩,
       .settle, .settle]).2 [Obs.begun 1]
    ⟨[Obs.complete 1, Obs.begun 2, Obs.complete 2], by decide⟩).1

/- ===================== Claim C4 ===================== -/

/-- C4: when a registered load handler throws during a batch, the error
is caught for that handler alone: the full observation trace shows every
handler of the batch invoked with the same arguments (each outcome
recorded individually), the batch completing after all of them settled,
and the next queued batch beginning and completing afterwards; the run
never enters the stalled state, so nothing propagates to the caller of
notify. -/
theorem c4_handler_fault_isolation (reg : Registry) (hs : List Handler)
    (args args2 : List String) (hreg : reg.load = hs)
    (hthrow : ∃ h ∈ hs, isErr (h.run args) = true) :
    (runNQ reg initNQ
        [.notify ⟨1, .named ("load"), args⟩, .notify ⟨2, .named ("unload"), args2⟩,
         .settle, .settle]).2 =
      [Obs.begun 1] ++ hs.map (fun h => Obs.invoke h.hid args (isErr (h.run args))) ++
        [Obs.complete 1, Obs.begun 2] ++
        reg.unload.map (fun h => Obs.invoke h.hid args2 (isErr (h.run args2))) ++
        [Obs.complete 2] ∧
      (∀ h ∈ hs, Obs.invoke h.hid args (isErr (h.run args)) ∈
        (runNQ reg initNQ
          [.notify ⟨1, .named ("load"), args⟩, .notify ⟨2, .named ("unload"), args2⟩,
           .settle, .settle]).2) ∧
      (runNQ reg initNQ
        [.notify ⟨1, .named ("load"), args⟩, .notify ⟨2, .named ("unload"), args2⟩,
         .settle, .settle]).1 = ⟨[], false⟩ := by
  obtain ⟨hw, hwmem, hwthrow⟩ := hthrow
  have htrace : (runNQ reg initNQ
      [.notify ⟨1, .named ("load"), args⟩, .notify ⟨2, .named ("unload"), args2⟩,
       .settle, .settle]).2 =
      [Obs.begun 1] ++ hs.map (fun h => Obs.invoke h.hid args (isErr (h.run args))) ++
        [Obs.complete 1, Obs.begun 2] ++
        reg.unload.map (fun h => Obs.invoke h.hid args2 (isErr (h.run args2))) ++
        [Obs.complete 2] := by
    simp [runNQ, execAct, initNQ, beginBatch, resolveEvent, hreg]
  refine ⟨htrace, ?_, ?_⟩
  · intro h hmem
    rw [htrace]
    simp only [List.mem_append]
    exact Or.inl (Or.inl (Or.inl (Or.inr (List.mem_map.mpr ⟨h, hmem, rfl⟩))))
  · simp [runNQ, execAct, initNQ, beginBatch, resolveEvent, hreg]

/-- C4 witness: two load handlers, the first of which throws; the second
is still invoked with the same arguments and both batches complete. -/
theorem c4_witness :
    (runNQ
        { load := [⟨1, fun _ => .error ("boom")⟩, ⟨2, fun _ => .ok ()⟩], unload := [] }
        initNQ
        [.notify ⟨1, .named ("load"), [("p")]⟩, .notify ⟨2, .named ("unload"), []⟩,
         .settle, .settle]).2 =
      [Obs.begun 1] ++
        [Obs.invoke 1 [("p")] true, Obs.invoke 2 [("p")] false] ++
        [Obs.complete 1, Obs.begun 2] ++ [] ++ [Obs.complete 2] := by
  have h := (c4_handler_fault_isolation
      { load := [⟨1, fun _ => .error ("boom")⟩, ⟨2, fun _ => .ok ()⟩], unload := [] }
      [⟨1, fun _ => .error ("boom")⟩, ⟨2, fun _ => .ok ()⟩] [("p")] [] rfl
      ⟨⟨1, fun _ => .error ("boom")⟩, by simp, rfl⟩).1
  rw [h]
  rfl

/- ===================== Claim C10 ===================== -/

/-- C10 counterexample: notify with the named event "toString" — a name
for which the registry yields no handler list (the read returns the
inherited Object.prototype function, not an array) — permanently stalls
the queue: `handlers.map` throws, the rejection skips the shift
continuation, so the first batch never completes, the batch enqueued
after it never begins, and both stay in the queue.  This refutes the
claim that the queue never stalls on an unresolvable event name. -/
theorem c10_counterexample :
    (runNQ { load := [], unload := [] } initNQ
        [.notify ⟨1, .named ("toString"), []⟩, .notify ⟨2, .named ("load"), []⟩,
         .settle, .settle, .settle]).2 = [Obs.begun 1] ∧
      (runNQ { load := [], unload := [] } initNQ
        [.notify ⟨1, .named ("toString"), []⟩, .notify ⟨2, .named ("load"), []⟩,
         .settle, .settle, .settle]).1.queue.length = 2 ∧
      (runNQ { load := [], unload := [] } initNQ
        [.notify ⟨1, .named ("toString"), []⟩, .notify ⟨2, .named ("load"), []⟩,
         .settle, .settle, .settle]).1.stuck = true := by
  exact ⟨by decide, by decide, by decide⟩

/-- C10 amended: for a named event whose registry read is undefined (any
name other than load and unload that does not collide with an
Object.prototype member), the batch performs no handler invocation and
its queue slot is still released on completion, so a batch enqueued after
it still begins and completes and the queue ends empty and unstalled.
For a name colliding with an Object.prototype member the read is truthy
but not an array and the queue stalls permanently (see the
counterexample). -/
theorem c10_unknown_event_slot_released (reg : Registry) (e : String)
    (args args2 : List String) (h1 : e ≠ ("load")) (h2 : e ≠ ("unload"))
    (h3 : e ∉ objectProtoKeys) :
    (runNQ reg initNQ
        [.notify ⟨1, .named e, args⟩, .notify ⟨2, .named ("load"), args2⟩,
         .settle, .settle]).2 =
      [Obs.begun 1, Obs.complete 1, Obs.begun 2] ++
        reg.load.map (fun h => Obs.invoke h.hid args2 (isErr (h.run args2))) ++
        [Obs.complete 2] ∧
      (runNQ reg initNQ
        [.notify ⟨1, .named e, args⟩, .notify ⟨2, .named ("load"), args2⟩,
         .settle, .settle]).1 = ⟨[], false⟩ := by
  constructor <;> simp [runNQ, execAct, initNQ, beginBatch, resolveEvent, h1, h2, h3]

/-- C10 witness: the amended statement at the concrete unresolvable event
name "foo". -/
theorem c10_witness :
    (runNQ { load := [], unload := [] } initNQ
        [.notify ⟨1, .named ("foo"), []⟩, .notify ⟨2, .named ("load"), []⟩,
         .settle, .settle]).2 =
      [Obs.begun 1, Obs.complete 1, Obs.begun 2] ++ [] ++ [Obs.complete 2] := by
  have h := (c10_unknown_event_slot_released { load := [], unload := [] } ("foo") [] []
    (by decide) (by decide) (by decide)).1
  rw [h]
  rfl

/- ===================== Claim C5: support lemmas ===================== -/

/-- A key occurring among the keys of an association list looks up to a
value. -/
theorem lookupKey_isSome_of_mem_keys {κ α : Type} [DecidableEq κ] {m : List (κ × α)} {k : κ}
    (h : k ∈ m.map Prod.fst) : (lookupKey m k).isSome := by
  induction m with
  | nil => simp at h
  | cons p rest ih =>
      by_cases hpk : p.1 = k
      · simp [lookupKey, hpk]
      · simp only [List.map_cons, List.mem_cons] at h
        rcases h with h | h
        · exact absurd h.symm hpk
        · simp only [lookupKey, if_neg hpk]
          exact ih h

/-- A successful lookup returns a binding of the list. -/
theorem lookupKey_mem {κ α : Type} [DecidableEq κ] : ∀ {m : List (κ × α)} {k : κ} {v : α},
    lookupKey m k = some v → (k, v) ∈ m := by
  intro m
  induction m with
  | nil => intro k v h; simp [lookupKey] at h
  | cons p rest ih =>
      intro k v h
      by_cases hpk : p.1 = k
      · simp only [lookupKey, if_pos hpk] at h
        have hv : p.2 = v := Option.some.inj h
        have hp : p = (k, v) := by
          cases p
          simp only at hpk hv
          rw [hpk, hv]
        rw [← hp]
        exact List.mem_cons_self _ _
      · simp only [lookupKey, if_neg hpk] at h
        exact List.mem_cons_of_mem _ (ih h)

/-- Erasing a key yields a sublist. -/
theorem eraseKey_sublist {κ α : Type} [DecidableEq κ] (m : List (κ × α)) (k : κ) :
    List.Sublist (eraseKey m k) m := by
  induction m with
  | nil => exact List.Sublist.refl _
  | cons p rest ih =>
      unfold eraseKey
      split
      · exact List.sublist_cons_self _ _
      · exact List.Sublist.cons₂ _ ih

/-- Erasing one key leaves lookups of other keys unchanged. -/
theorem lookupKey_eraseKey_ne {κ α : Type} [DecidableEq κ] (m : List (κ × α)) {k k' : κ}
    (h : k ≠ k') : lookupKey (eraseKey m k) k' = lookupKey m k' := by
  induction m with
  | nil => rfl
  | cons p rest ih =>
      by_cases hpk : p.1 = k
      · simp only [eraseKey, if_pos hpk, lookupKey]
        rw [if_neg (by rw [hpk]; exact h)]
      · simp only [eraseKey, if_neg hpk, lookupKey]
        by_cases hpk' : p.1 = k'
        · simp [if_pos hpk']
        · simp only [if_neg hpk']
          exact ih

/-- Appending new bindings with a different key does not change a
property read. -/
theorem jsGet_append_ne (m : List (String × Info)) (x : String × Info) {k : String}
    (h : x.1 ≠ k) : jsGet (m ++ [x]) k = jsGet m k := by
  unfold jsGet
  have hl : lookupKey (m ++ [x]) k = lookupKey m k := by
    induction m with
    | nil => simp [lookupKey, if_neg h]
    | cons p rest ih =>
        by_cases hpk : p.1 = k
        · simp [lookupKey, if_pos hpk]
        · simp only [List.cons_append, lookupKey, if_neg hpk]
          exact ih
  rw [hl]

/-- Totality of the code point comparison. -/
theorem lexLe_total : ∀ a b : List Char, lexLe a b = true ∨ lexLe b a = true := by
  intro a
  induction a with
  | nil => intro b; left; rfl
  | cons c as ih =>
      intro b
      cases b with
      | nil => right; rfl
      | cons d bs =>
          unfold lexLe
          rcases Nat.lt_trichotomy c.toNat d.toNat with h | h | h
          · left; simp [h]
          · have h1 : ¬ c.toNat < d.toNat := by omega
            have h2 : ¬ d.toNat < c.toNat := by omega
            simp only [if_neg h1, if_neg h2]
            exact ih bs
          · right; simp [h]

/-- Transitivity of the code point comparison. -/
theorem lexLe_trans : ∀ a b c : List Char, lexLe a b = true → lexLe b c = true →
    lexLe a c = true := by
  intro a
  induction a with
  | nil => intro b c _ _; rfl
  | cons x as ih =>
      intro b c hab hbc
      cases b with
      | nil =>
          rw [show lexLe (x :: as) [] = false from rfl] at hab
          exact absurd hab (by decide)
      | cons y bs =>
          cases c with
          | nil =>
              rw [show lexLe (y :: bs) [] = false from rfl] at hbc
              exact absurd hbc (by decide)
          | cons z cs =>
              unfold lexLe at hab hbc ⊢
              by_cases hxy : x.toNat < y.toNat
              · by_cases hyz : y.toNat < z.toNat
                · simp [show x.toNat < z.toNat by omega]
                · by_cases hzy : z.toNat < y.toNat
                  · simp only [if_neg hyz, if_pos hzy] at hbc
                    exact absurd hbc (by decide)
                  · simp [show x.toNat < z.toNat by omega]
              · by_cases hyx : y.toNat < x.toNat
                · simp [hxy, hyx] at hab
                · by_cases hyz : y.toNat < z.toNat
                  · simp [show x.toNat < z.toNat by omega]
                  · by_cases hzy : z.toNat < y.toNat
                    · simp [hyz, hzy] at hbc
                    · have h1 : ¬ x.toNat < z.toNat := by omega
                      have h2 : ¬ z.toNat < x.toNat := by omega
                      simp only [if_neg h1, if_neg h2]
                      simp only [if_neg hxy, if_neg hyx] at hab
                      simp only [if_neg hyz, if_neg hzy] at hbc
                      exact ih bs cs hab hbc

/-- Membership in an insertion. -/
theorem mem_insertSorted {x n : String} : ∀ {l : List String},
    x ∈ insertSorted n l ↔ x = n ∨ x ∈ l := by
  intro l
  induction l with
  | nil => simp [insertSorted]
  | cons m rest ih =>
      unfold insertSorted
      split
      · simp
      · simp only [List.mem_cons, ih]
        tauto

/-- Insertion preserves sortedness with respect to `strLe`. -/
theorem insertSorted_sorted (n : String) : ∀ {l : List String},
    List.Sorted (fun a b => strLe a b = true) l →
    List.Sorted (fun a b => strLe a b = true) (insertSorted n l) := by
  intro l
  induction l with
  | nil => intro _; simp [insertSorted]
  | cons m rest ih =>
      intro h
      rw [List.sorted_cons] at h
      obtain ⟨hm, hrest⟩ := h
      unfold insertSorted
      split
      · rename_i hnm
        rw [List.sorted_cons]
        refine ⟨?_, by rw [List.sorted_cons]; exact ⟨hm, hrest⟩⟩
        intro b hb
        rcases List.mem_cons.mp hb with hb | hb
        · rw [hb]; exact hnm
        · exact lexLe_trans _ _ _ hnm (hm b hb)
      · rename_i hnm
        rw [List.sorted_cons]
        refine ⟨?_, ih hrest⟩
        intro b hb
        rcases mem_insertSorted.mp hb with hb | hb
        · subst hb
          rcases lexLe_total (String.data b) (String.data m) with hc | hc
          · exact absurd hc hnm
          · exact hc
        · exact hm b hb

/-- The embedded `.sort()` produces an ascending name list. -/
theorem sortNames_sorted (l : List String) :
    List.Sorted (fun a b => strLe a b = true) (sortNames l) := by
  induction l with
  | nil => simp [sortNames]
  | cons n rest ih => exact insertSorted_sorted n ih

/-- The embedded `.sort()` is a permutation of its input. -/
theorem sortNames_perm (l : List String) : List.Perm (sortNames l) l := by
  induction l with
  | nil => rfl
  | cons n rest ih =>
      have h1 : ∀ (m : List String), List.Perm (insertSorted n m) (n :: m) := by
        intro m
        induction m with
        | nil => rfl
        | cons x xs ihx =>
            unfold insertSorted
            split
            · rfl
            · exact (List.Perm.cons x ihx).trans (List.Perm.swap n x xs)
      exact (h1 (sortNames rest)).trans (List.Perm.cons n ih)

/-- Keys of an association list look up to a value exactly when they
occur among its keys. -/
theorem lookupKey_isSome_iff {κ α : Type} [DecidableEq κ] {m : List (κ × α)} {k : κ} :
    (lookupKey m k).isSome ↔ k ∈ m.map Prod.fst := by
  constructor
  · intro h
    obtain ⟨v, hv⟩ := Option.isSome_iff_exists.mp h
    exact List.mem_map.mpr ⟨(k, v), lookupKey_mem hv, rfl⟩
  · exact lookupKey_isSome_of_mem_keys

/-- `checkFile` reads only the `files` map of the state. -/
theorem checkFile_eq_of_files_eq (rn : FsPath) {s1 s2 : WState} (pth : FsPath)
    (n : String) (h : s1.files = s2.files) :
    checkFile rn s1 pth n = checkFile rn s2 pth n := by
  unfold checkFile
  rw [h]

/-- `checkDirectory` reads only the `directories` map of the state. -/
theorem checkDirectory_eq_of_dirs_eq {s1 s2 : WState} (n : String)
    (h : s1.dirs = s2.dirs) : checkDirectory s1 n = checkDirectory s2 n := by
  unfold checkDirectory
  rw [h]

/-- The file pass of the initial scan emits exactly the adds of the
entries that are files and eligible with respect to the initial state, in
listing order: the evolving `files` map never interferes because the
listing has no duplicate names. -/
theorem scanFiles_filter (rn : FsPath) :
    ∀ (infos : List Info) (s : WState), (infos.map Info.name).Nodup →
      (scanFiles rn s infos).2 =
        (infos.filter (fun i => i.isFile && checkFile rn s i.path i.name)).map
          Action.added := by
  intro infos
  induction infos with
  | nil => intro s _; rfl
  | cons i rest ih =>
      intro s hnd
      rw [List.map_cons] at hnd
      obtain ⟨hni, hnr⟩ := List.nodup_cons.mp hnd
      show ((if i.isFile then fileAdded rn s i else (s, [])).2 ++
          (scanFiles rn (if i.isFile then fileAdded rn s i else (s, [])).1 rest).2) = _
      by_cases hf : i.isFile = true
      · by_cases hc : checkFile rn s i.path i.name = true
        · have hstep : (if i.isFile then fileAdded rn s i else (s, [])) =
              ({ s with files := s.files ++ [(i.name, i)] }, [Action.added i]) := by
            simp [hf, fileAdded, hc]
          rw [hstep]
          have hcongr : rest.filter (fun j => j.isFile &&
              checkFile rn { s with files := s.files ++ [(i.name, i)] } j.path j.name) =
              rest.filter (fun j => j.isFile && checkFile rn s j.path j.name) := by
            apply List.filter_congr
            intro j hj
            have hne : i.name ≠ j.name := by
              intro he
              exact hni (by rw [he]; exact List.mem_map.mpr ⟨j, hj, rfl⟩)
            simp [checkFile, jsGet_append_ne s.files (i.name, i) hne]
          rw [ih _ hnr, hcongr, List.filter_cons]
          simp [hf, hc]
        · have hstep : (if i.isFile then fileAdded rn s i else (s, [])) = (s, []) := by
            simp [hf, fileAdded, hc]
          rw [hstep, ih _ hnr, List.filter_cons]
          simp [hf, hc]
      · have hstep : (if i.isFile then fileAdded rn s i else (s, [])) = (s, []) := by
          simp [hf]
        rw [hstep, ih _ hnr, List.filter_cons]
        simp [hf]

/-- The directory pass of the initial scan emits exactly the adds of the
entries that are directories and eligible with respect to the initial
state, in listing order. -/
theorem scanDirs_filter :
    ∀ (infos : List Info) (s : WState), (infos.map Info.name).Nodup →
      (scanDirs s infos).2 =
        (infos.filter (fun i => i.isDirectory && checkDirectory s i.name)).map
          Action.added := by
  intro infos
  induction infos with
  | nil => intro s _; rfl
  | cons i rest ih =>
      intro s hnd
      rw [List.map_cons] at hnd
      obtain ⟨hni, hnr⟩ := List.nodup_cons.mp hnd
      show ((if i.isDirectory then directoryAdded s i else (s, [])).2 ++
          (scanDirs (if i.isDirectory then directoryAdded s i else (s, [])).1 rest).2) = _
      by_cases hf : i.isDirectory = true
      · by_cases hc : checkDirectory s i.name = true
        · have hstep : (if i.isDirectory then directoryAdded s i else (s, [])) =
              ({ s with dirs := s.dirs.map (fun ds => ds ++ [(i.name, i)]) },
                [Action.added i]) := by
            simp [hf, directoryAdded, hc]
          rw [hstep]
          have hcongr : rest.filter (fun j => j.isDirectory && checkDirectory
              { s with dirs := s.dirs.map (fun ds => ds ++ [(i.name, i)]) } j.name) =
              rest.filter (fun j => j.isDirectory && checkDirectory s j.name) := by
            apply List.filter_congr
            intro j hj
            have hne : i.name ≠ j.name := by
              intro he
              exact hni (by rw [he]; exact List.mem_map.mpr ⟨j, hj, rfl⟩)
            cases hds : s.dirs with
            | none => simp [checkDirectory, hds]
            | some ds => simp [checkDirectory, hds, jsGet_append_ne ds (i.name, i) hne]
          rw [ih _ hnr, hcongr, List.filter_cons]
          simp [hf, hc]
        · have hstep : (if i.isDirectory then directoryAdded s i else (s, [])) = (s, []) := by
            simp [hf, directoryAdded, hc]
          rw [hstep, ih _ hnr, List.filter_cons]
          simp [hf, hc]
      · have hstep : (if i.isDirectory then directoryAdded s i else (s, [])) = (s, []) := by
          simp [hf]
        rw [hstep, ih _ hnr, List.filter_cons]
        simp [hf]

/-- The file pass does not change the `directories` map. -/
theorem scanFiles_dirs (rn : FsPath) :
    ∀ (l : List Info) (s : WState), (scanFiles rn s l).1.dirs = s.dirs := by
  intro l
  induction l with
  | nil => intro s; rfl
  | cons i rest ih =>
      intro s
      show (scanFiles rn (if i.isFile then fileAdded rn s i else (s, [])).1 rest).1.dirs = _
      rw [ih]
      by_cases hf : i.isFile = true <;> simp [hf, fileAdded] <;> split <;> rfl

/-- The names of the sorted, stat-ed listing are the sorted names. -/
theorem scanInfos_names (p : FsPath) (names : List String)
    (stat : String → Option StatKind) :
    (scanInfos p names stat).map Info.name = sortNames names := by
  unfold scanInfos
  rw [List.map_map]
  have : (Info.name ∘ fun n => fileInfo (p ++ [n]) n (stat n)) = fun n => n := by
    funext n
    rfl
  rw [this]
  simp

/-- The directory teardown pass emits, for each key of the given list (a
duplicate-free list of keys of the map), the removal of that key's entry,
in the order of the key list. -/
theorem removeDirsFold_trace :
    ∀ (ks : List String) (s : WState) (ds : List (String × Info)),
      s.dirs = some ds → (ds.map Prod.fst).Nodup →
      (∀ kv ∈ ds, kv.2.name = kv.1) → ks.Nodup →
      (∀ k ∈ ks, k ∈ ds.map Prod.fst) →
      (removeDirsFold s ks).2 =
        ks.filterMap (fun k => (lookupKey ds k).map
          (fun i => Action.removed (JVal.obj i))) := by
  intro ks
  induction ks with
  | nil => intro s ds _ _ _ _ _; rfl
  | cons k ks' ih =>
      intro s ds hds hnd hnamed hknd hkmem
      obtain ⟨hk1, hk2⟩ := List.nodup_cons.mp hknd
      obtain ⟨i, hi⟩ := Option.isSome_iff_exists.mp
        (lookupKey_isSome_of_mem_keys (hkmem k (List.mem_cons_self _ _)))
      have hiname : i.name = k := hnamed (k, i) (lookupKey_mem hi)
      have hjs : jsGet ds k = some (JVal.obj i) := by
        unfold jsGet
        rw [hi]
      have hstep : removeDirsFold s (k :: ks') =
          ((removeDirsFold { s with dirs := some (eraseKey ds k) } ks').1,
            Action.removed (JVal.obj i) ::
              (removeDirsFold { s with dirs := some (eraseKey ds k) } ks').2) := by
        simp only [removeDirsFold, hds, hjs, directoryRemoved, jvalName, hiname,
          Option.map_some', List.singleton_append]
      rw [hstep]
      show Action.removed (JVal.obj i) :: _ = _
      rw [List.filterMap_cons, hi]
      simp only [Option.map_some']
      congr 1
      have hsub := eraseKey_sublist ds k
      rw [ih { s with dirs := some (eraseKey ds k) } (eraseKey ds k) rfl
        (List.Nodup.sublist (List.Sublist.map Prod.fst hsub) hnd)
        (fun kv hkv => hnamed kv (hsub.subset hkv)) hk2
        (fun k' hk' => by
          have hne : k ≠ k' := fun he => hk1 (he ▸ hk')
          rw [← lookupKey_isSome_iff, lookupKey_eraseKey_ne ds hne,
            lookupKey_isSome_iff]
          exact hkmem k' (List.mem_cons_of_mem _ hk'))]
      apply List.filterMap_congr
      intro k' hk'
      have hne : k ≠ k' := fun he => hk1 (he ▸ hk')
      rw [lookupKey_eraseKey_ne ds hne]

/-- The file teardown pass emits, for each key of the given list (a
duplicate-free list of keys of the map), the removal of that key's entry,
in the order of the key list. -/
theorem removeFilesFold_trace :
    ∀ (ks : List String) (s : WState),
      (s.files.map Prod.fst).Nodup →
      (∀ kv ∈ s.files, kv.2.name = kv.1) → ks.Nodup →
      (∀ k ∈ ks, k ∈ s.files.map Prod.fst) →
      (removeFilesFold s ks).2 =
        ks.filterMap (fun k => (lookupKey s.files k).map
          (fun i => Action.removed (JVal.obj i))) := by
  intro ks
  induction ks with
  | nil => intro s _ _ _ _; rfl
  | cons k ks' ih =>
      intro s hnd hnamed hknd hkmem
      obtain ⟨hk1, hk2⟩ := List.nodup_cons.mp hknd
      obtain ⟨i, hi⟩ := Option.isSome_iff_exists.mp
        (lookupKey_isSome_of_mem_keys (hkmem k (List.mem_cons_self _ _)))
      have hiname : i.name = k := hnamed (k, i) (lookupKey_mem hi)
      have hjs : jsGet s.files k = some (JVal.obj i) := by
        unfold jsGet
        rw [hi]
      have hstep : removeFilesFold s (k :: ks') =
          ((removeFilesFold { s with files := eraseKey s.files k } ks').1,
            Action.removed (JVal.obj i) ::
              (removeFilesFold { s with files := eraseKey s.files k } ks').2) := by
        simp only [removeFilesFold, hjs, fileRemoved, jvalName, hiname,
          List.singleton_append]
      rw [hstep]
      show Action.removed (JVal.obj i) :: _ = _
      rw [List.filterMap_cons, hi]
      simp only [Option.map_some']
      congr 1
      have hsub := eraseKey_sublist s.files k
      rw [ih { s with files := eraseKey s.files k }
        (List.Nodup.sublist (List.Sublist.map Prod.fst hsub) hnd)
        (fun kv hkv => hnamed kv (hsub.subset hkv)) hk2
        (fun k' hk' => by
          have hne : k ≠ k' := fun he => hk1 (he ▸ hk')
          rw [← lookupKey_isSome_iff]
          show (lookupKey (eraseKey s.files k) k').isSome
          rw [lookupKey_eraseKey_ne s.files hne, lookupKey_isSome_iff]
          exact hkmem k' (List.mem_cons_of_mem _ hk'))]
      apply List.filterMap_congr
      intro k' hk'
      have hne : k ≠ k' := fun he => hk1 (he ▸ hk')
      show (lookupKey (eraseKey s.files k) k').map _ = _
      rw [lookupKey_eraseKey_ne s.files hne]

/-- The directory teardown pass does not change the `files` map or the
handle flag. -/
theorem removeDirsFold_files :
    ∀ (ks : List String) (s : WState),
      (removeDirsFold s ks).1.files = s.files ∧
        (removeDirsFold s ks).1.watching = s.watching := by
  intro ks
  induction ks with
  | nil => intro s; exact ⟨rfl, rfl⟩
  | cons k ks' ih =>
      intro s
      cases hds : s.dirs with
      | none =>
          simp only [removeDirsFold, hds]
          exact ih s
      | some ds =>
          cases hjs : jsGet ds k with
          | none =>
              simp only [removeDirsFold, hds, hjs]
              exact ih s
          | some v =>
              simp only [removeDirsFold, hds, hjs]
              refine ⟨?_, ?_⟩
              · rw [(ih _).1]
                rfl
              · rw [(ih _).2]
                rfl

/-- C5: the initial scan of a fresh watcher sorts the listing and emits
the adds of all eligible files in listing (ascending) order before all
eligible directory adds (the directory filter is empty unless the watcher
is recursive, since `checkDirectory` requires the `directories` map);
`sortNames` is sorted ascending and is a permutation of the listing; and
teardown closes the native handle first and then emits the removals of
the tracked subdirectories in descending key order followed by the
removals of the tracked files in descending key order. -/
theorem c5_scan_and_teardown_order :
    (∀ (p : FsPath) (rec : Bool) (rn : FsPath) (names : List String)
        (stat : String → Option StatKind), names.Nodup →
      ∃ w', watch rn (mkRunWatcher p rec) names stat = .ok (w',
        WEffect.installHandle ::
          (((scanInfos p names stat).filter
              (fun i => i.isFile && checkFile rn (mkRunWatcher p rec) i.path i.name)).map
            (fun i => WEffect.act (Action.added i)) ++
           ((scanInfos p names stat).filter
              (fun i => i.isDirectory && checkDirectory (mkRunWatcher p rec) i.name)).map
            (fun i => WEffect.act (Action.added i))))) ∧
    (∀ (names : List String),
      List.Sorted (fun a b => strLe a b = true) (sortNames names) ∧
        List.Perm (sortNames names) names) ∧
    (∀ (s : WState) (ds : List (String × Info)), s.watching = true → s.dirs = some ds →
      (ds.map Prod.fst).Nodup → (∀ kv ∈ ds, kv.2.name = kv.1) →
      (s.files.map Prod.fst).Nodup → (∀ kv ∈ s.files, kv.2.name = kv.1) →
      ∃ s', stop s = .ok (s',
        WEffect.closeHandle ::
          (((sortNames (ds.map Prod.fst)).reverse).filterMap
            (fun k => (lookupKey ds k).map
              (fun i => WEffect.act (Action.removed (JVal.obj i)))) ++
           ((sortNames (s.files.map Prod.fst)).reverse).filterMap
            (fun k => (lookupKey s.files k).map
              (fun i => WEffect.act (Action.removed (JVal.obj i))))))) := by
  refine ⟨?_, ?_, ?_⟩
  · intro p rec rn names stat hnd
    have hinf : ((scanInfos p names stat).map Info.name).Nodup := by
      rw [scanInfos_names]
      exact ((sortNames_perm names).nodup_iff).mpr hnd
    have h1 : (scanFiles rn { mkRunWatcher p rec with watching := true }
        (scanInfos p names stat)).2 =
        ((scanInfos p names stat).filter
          (fun i => i.isFile && checkFile rn (mkRunWatcher p rec) i.path i.name)).map
          Action.added := by
      rw [scanFiles_filter rn (scanInfos p names stat) _ hinf]
      apply congrArg (List.map Action.added)
      apply List.filter_congr
      intro j _
      simp [checkFile, mkRunWatcher]
    have h2 : (scanDirs (scanFiles rn { mkRunWatcher p rec with watching := true }
        (scanInfos p names stat)).1 (scanInfos p names stat)).2 =
        ((scanInfos p names stat).filter
          (fun i => i.isDirectory && checkDirectory (mkRunWatcher p rec) i.name)).map
          Action.added := by
      rw [scanDirs_filter (scanInfos p names stat) _ hinf]
      apply congrArg (List.map Action.added)
      apply List.filter_congr
      intro j _
      have hd : (scanFiles rn { mkRunWatcher p rec with watching := true }
          (scanInfos p names stat)).1.dirs = (mkRunWatcher p rec).dirs := by
        rw [scanFiles_dirs]
      rw [checkDirectory_eq_of_dirs_eq j.name hd]
    have hw : watch rn (mkRunWatcher p rec) names stat = .ok
        ((scanDirs (scanFiles rn { mkRunWatcher p rec with watching := true }
            (scanInfos p names stat)).1 (scanInfos p names stat)).1,
          WEffect.installHandle ::
            ((scanFiles rn { mkRunWatcher p rec with watching := true }
                (scanInfos p names stat)).2.map WEffect.act ++
             (scanDirs (scanFiles rn { mkRunWatcher p rec with watching := true }
                (scanInfos p names stat)).1 (scanInfos p names stat)).2.map
                WEffect.act)) := rfl
    rw [h1, h2] at hw
    refine ⟨(scanDirs (scanFiles rn { mkRunWatcher p rec with watching := true }
        (scanInfos p names stat)).1 (scanInfos p names stat)).1, ?_⟩
    rw [hw]
    simp only [List.map_map]
    rfl
  · intro names
    exact ⟨sortNames_sorted names, sortNames_perm names⟩
  · intro s ds hw hds hndd hnamedd hndf hnamedf
    have hdnod : ((sortNames (ds.map Prod.fst)).reverse).Nodup :=
      List.nodup_reverse.mpr ((sortNames_perm _).nodup_iff.mpr hndd)
    have hdmem : ∀ k ∈ (sortNames (ds.map Prod.fst)).reverse, k ∈ ds.map Prod.fst :=
      fun k hk => (sortNames_perm _).mem_iff.mp (List.mem_reverse.mp hk)
    have hs0d : ({ s with watching := false } : WState).dirs = some ds := hds
    have htr1 := removeDirsFold_trace ((sortNames (ds.map Prod.fst)).reverse)
      { s with watching := false } ds hs0d hndd hnamedd hdnod hdmem
    have hfiles := (removeDirsFold_files ((sortNames (ds.map Prod.fst)).reverse)
      { s with watching := false }).1
    have hfnod : ((sortNames (s.files.map Prod.fst)).reverse).Nodup :=
      List.nodup_reverse.mpr ((sortNames_perm _).nodup_iff.mpr hndf)
    have hfmem : ∀ k ∈ (sortNames (s.files.map Prod.fst)).reverse,
        k ∈ s.files.map Prod.fst :=
      fun k hk => (sortNames_perm _).mem_iff.mp (List.mem_reverse.mp hk)
    have hstep : stop s = .ok
        ((removeFilesFold
            (removeDirsFold { s with watching := false }
              ((sortNames (ds.map Prod.fst)).reverse)).1
            ((sortNames ((removeDirsFold { s with watching := false }
              ((sortNames (ds.map Prod.fst)).reverse)).1.files.map Prod.fst)).reverse)).1,
          WEffect.closeHandle ::
            ((removeDirsFold { s with watching := false }
                ((sortNames (ds.map Prod.fst)).reverse)).2.map WEffect.act ++
             (removeFilesFold
                (removeDirsFold { s with watching := false }
                  ((sortNames (ds.map Prod.fst)).reverse)).1
                ((sortNames ((removeDirsFold { s with watching := false }
                  ((sortNames (ds.map Prod.fst)).reverse)).1.files.map
                    Prod.fst)).reverse)).2.map WEffect.act)) := by
      unfold stop
      rw [hw]
      simp only [hds]
      simp
    rw [hfiles] at hstep
    have hsf : ({ s with watching := false } : WState).files = s.files := rfl
    rw [hsf] at hstep
    have htr2 := removeFilesFold_trace ((sortNames (s.files.map Prod.fst)).reverse)
      (removeDirsFold { s with watching := false }
        ((sortNames (ds.map Prod.fst)).reverse)).1
    rw [hfiles, hsf] at htr2
    have htr2' := htr2 hndf hnamedf hfnod hfmem
    rw [htr1, htr2'] at hstep
    refine ⟨(removeFilesFold
        (removeDirsFold { s with watching := false }
          (sortNames (List.map Prod.fst ds)).reverse).1
        (sortNames (List.map Prod.fst s.files)).reverse).1, ?_⟩
    rw [hstep]
    simp only [List.map_filterMap, Option.map_map]
    rfl

/-- C5 witness: a concrete root containing files a.js, b.js and
directories a, z: the scan loads a.js, b.js, a, z in that order after the
handle, and teardown closes the handle and removes z, a, b.js, a.js. -/
theorem c5_witness :
    (∃ w', watch rnX (mkRunWatcher [("r")] true)
        [("z"), ("b.js"), ("a"), ("a.js")]
        (fun n => if n = ("b.js") || n = ("a.js") then some .file
          else if n = ("z") || n = ("a") then some .directory else none) =
      .ok (w',
        WEffect.installHandle ::
          (((scanInfos [("r")] [("z"), ("b.js"), ("a"), ("a.js")]
              (fun n => if n = ("b.js") || n = ("a.js") then some .file
                else if n = ("z") || n = ("a") then some .directory else none)).filter
              (fun i => i.isFile && checkFile rnX (mkRunWatcher [("r")] true) i.path i.name)).map
            (fun i => WEffect.act (Action.added i)) ++
           ((scanInfos [("r")] [("z"), ("b.js"), ("a"), ("a.js")]
              (fun n => if n = ("b.js") || n = ("a.js") then some .file
                else if n = ("z") || n = ("a") then some .directory else none)).filter
              (fun i => i.isDirectory && checkDirectory (mkRunWatcher [("r")] true) i.name)).map
            (fun i => WEffect.act (Action.added i))))) ∧
      List.Sorted (fun a b => strLe a b = true)
        (sortNames [("z"), ("b.js"), ("a"), ("a.js")]) := by
  refine ⟨c5_scan_and_teardown_order.1 [("r")] true rnX _ _ (by decide), ?_⟩
  exact (c5_scan_and_teardown_order.2.1 [("z"), ("b.js"), ("a"), ("a.js")]).1

/- ===================== Reload engine (module.exports class) =====================

Source (src/jsrundir.js lines 157-309).  The engine owns `#targets` (the
registered root paths), `#watchers` (path → RunWatcher, both the
recursive roots and the non-recursive first-level subdirectory watchers),
the `require.cache` interaction and the notification calls.  `#run(target)`
defines one `adder`/`remover` pair and starts the root watcher with it;
the same pair is passed to every subdirectory watcher it creates.

The engine is embedded as a state machine.  Because the JavaScript
callbacks run synchronously inside one another, the watcher callbacks are
linearized into a pending-action queue processed in order: a step either
delivers a native event (or a start/stop call) to a watcher, pushing its
emitted callbacks onto the queue, or processes the front callback through
the adder/remover.  An uncaught throw inside a callback (looking up a
missing subwatcher, stopping a stopped one) kills the process: it is
modelled by the `crashed` flag, after which no step applies. -/

/-- More lookup/update lemmas used by the engine proofs. -/
theorem lookupKey_append {κ α : Type} [DecidableEq κ] (m m' : List (κ × α)) (k : κ) :
    lookupKey (m ++ m') k =
      match lookupKey m k with
      | some v => some v
      | none => lookupKey m' k := by
  induction m with
  | nil => rfl
  | cons p rest ih =>
      by_cases hpk : p.1 = k
      · simp [lookupKey, hpk]
      · simp only [List.cons_append, lookupKey, if_neg hpk]
        exact ih

theorem lookupKey_updateKey_self {κ α : Type} [DecidableEq κ]
    {m : List (κ × α)} {k : κ} {w : α} (v : α) (h : lookupKey m k = some w) :
    lookupKey (updateKey m k v) k = some v := by
  induction m with
  | nil => simp [lookupKey] at h
  | cons p rest ih =>
      by_cases hpk : p.1 = k
      · simp [updateKey, hpk, lookupKey]
      · simp only [lookupKey, if_neg hpk] at h
        simp only [updateKey, if_neg hpk, lookupKey, if_neg hpk]
        exact ih h

theorem lookupKey_updateKey_ne {κ α : Type} [DecidableEq κ]
    (m : List (κ × α)) {k k' : κ} (v : α) (h : k ≠ k') :
    lookupKey (updateKey m k v) k' = lookupKey m k' := by
  induction m with
  | nil => rfl
  | cons p rest ih =>
      by_cases hpk : p.1 = k
      · simp only [updateKey, if_pos hpk, lookupKey]
        rw [if_neg (by rw [hpk]; exact h), if_neg (by rw [hpk]; exact h)]
      · simp only [updateKey, if_neg hpk, lookupKey]
        by_cases hpk' : p.1 = k'
        · simp [if_pos hpk']
        · simp only [if_neg hpk']
          exact ih

theorem updateKey_keys {κ α : Type} [DecidableEq κ] (m : List (κ × α)) (k : κ) (v : α) :
    (updateKey m k v).map Prod.fst = m.map Prod.fst := by
  induction m with
  | nil => rfl
  | cons p rest ih =>
      by_cases hpk : p.1 = k
      · simp [updateKey, hpk]
      · simp only [updateKey, if_neg hpk, List.map_cons]
        rw [ih]

theorem mem_updateKey {κ α : Type} [DecidableEq κ] {m : List (κ × α)} {k : κ} {v : α}
    {pw : κ × α} (h : pw ∈ updateKey m k v) : pw ∈ m ∨ pw = (k, v) := by
  induction m with
  | nil => simp [updateKey] at h
  | cons p rest ih =>
      by_cases hpk : p.1 = k
      · simp only [updateKey, if_pos hpk, List.mem_cons] at h
        rcases h with h | h
        · right; rw [h, hpk]
        · left; exact List.mem_cons_of_mem _ h
      · simp only [updateKey, if_neg hpk, List.mem_cons] at h
        rcases h with h | h
        · left; rw [h]; exact List.mem_cons_self _ _
        · rcases ih h with h' | h'
          · left; exact List.mem_cons_of_mem _ h'
          · right; exact h'

/-- Lookup over a list of targets paired with freshly built values. -/
theorem lookupKey_map_pair {κ α : Type} [DecidableEq κ] (f : κ → α) :
    ∀ (ts : List κ) (t : κ), t ∈ ts →
      lookupKey (ts.map (fun t => (t, f t))) t = some (f t) := by
  intro ts
  induction ts with
  | nil => intro t h; simp at h
  | cons t0 rest ih =>
      intro t h
      by_cases he : t0 = t
      · simp [lookupKey, he]
      · rcases List.mem_cons.mp h with h' | h'
        · exact absurd h'.symm he
        · simp only [List.map_cons, lookupKey, if_neg he]
          exact ih t h'

/-- An opaque loaded artifact (`module.exports`): whether it declares the
optional `jsrundir.onLoad` / `jsrundir.onUnload` hooks. -/
structure Artifact where
  hasOnLoad : Bool
  hasOnUnload : Bool
deriving DecidableEq

/-- The Script Loader (`require`): `none` models a load failure (the
throw caught by the adder). -/
def Loader := FsPath → Option Artifact

/-- Engine notifications, tagged with the path of the file they concern:
the `load`/`unload` events enqueued through `#notify`, and the ad-hoc
lifecycle hook callbacks of that file's artifact enqueued through the
same queue. -/
inductive NEvent
  | load (p : FsPath)
  | unload (p : FsPath)
  | hookLoad (p : FsPath)
  | hookUnload (p : FsPath)
deriving DecidableEq

/-- The path a notification refers to. -/
def npath : NEvent → FsPath
  | .load p => p
  | .unload p => p
  | .hookLoad p => p
  | .hookUnload p => p

/-- Engine state: registered targets, the watcher registry, the
require cache, the emitted notifications, the reported loader errors, the
pending (not yet processed) watcher callbacks, and the crash flag. -/
structure EState where
  targets : List FsPath
  watchers : List (FsPath × WState)
  loaded : List (FsPath × Artifact)
  notifs : List NEvent
  errors : List FsPath
  pending : List Action
  crashed : Bool

/-- The adder's file branch (src/jsrundir.js lines 252-268): `require`
the path (a cache hit returns the cached artifact without running the
loader); on failure report the error and enqueue nothing; on success
enqueue the artifact's onLoad hook (when declared) and then the `load`
notification. -/
def adderFile (L : Loader) (es : EState) (p : FsPath) : EState :=
  match lookupKey es.loaded p with
  | some a =>
      { es with notifs := es.notifs ++
          ((if a.hasOnLoad then [NEvent.hookLoad p] else []) ++ [NEvent.load p]) }
  | none =>
      match L p with
      | none => { es with errors := es.errors ++ [p] }
      | some a =>
          { es with loaded := es.loaded ++ [(p, a)],
                    notifs := es.notifs ++
                      ((if a.hasOnLoad then [NEvent.hookLoad p] else []) ++
                        [NEvent.load p]) }

/-- The remover's file branch (src/jsrundir.js lines 224-240): when the
path is in `require.cache`, evict it, enqueue the `unload` notification
and then the artifact's onUnload hook (when declared); otherwise do
nothing. -/
def removerFile (es : EState) (p : FsPath) : EState :=
  match lookupKey es.loaded p with
  | none => es
  | some a =>
      { es with loaded := eraseKey es.loaded p,
                notifs := es.notifs ++
                  (NEvent.unload p :: (if a.hasOnUnload then [NEvent.hookUnload p]
                    else [])) }

/-- The adder's directory branch (src/jsrundir.js lines 270-278): when no
watcher is registered for the path, create a NON-recursive RunWatcher,
register it, and start it; the scan's callbacks join the pending queue.
(`watch` on a fresh watcher cannot fail; the error branch is kept for
totality and marks a crash.) -/
def adderDir (rn : FsPath) (es : EState) (p : FsPath) (names : List String)
    (stat : String → Option StatKind) : EState × List Action :=
  if (lookupKey es.watchers p).isSome then (es, [])
  else
    match watch rn (mkRunWatcher p false) names stat with
    | .error _ => ({ es with crashed := true }, [])
    | .ok (w, effs) =>
        ({ es with watchers := es.watchers ++ [(p, w)] }, actsOf effs)

/-- The remover's directory branch (src/jsrundir.js lines 241-249): look
up the watcher registered for the path and stop it (a missing watcher or
an already-stopped one throws out of the native callback, crashing the
process), then drop it from the registry when it is non-recursive; the
stop's removal callbacks join the pending queue. -/
def removerDir (es : EState) (p : FsPath) : EState × List Action :=
  match lookupKey es.watchers p with
  | none => ({ es with crashed := true }, [])
  | some w =>
      match stop w with
      | .error _ => ({ es with crashed := true }, [])
      | .ok (w', effs) =>
          let ws := updateKey es.watchers p w'
          ({ es with watchers := if w'.dirs = none then eraseKey ws p else ws },
            actsOf effs)

/-- Dispatch one watcher callback through the adder/remover pair (the
same pair for every watcher).  An inherited Object.prototype member
passed as the removed value has undefined `isFile`/`isDirectory`, so the
remover does nothing with it. -/
def procAction (L : Loader) (rn : FsPath) (es : EState) (a : Action)
    (names : List String) (stat : String → Option StatKind) : EState × List Action :=
  match a with
  | .added i =>
      if i.isFile then (adderFile L es i.path, [])
      else if i.isDirectory then adderDir rn es i.path names stat
      else (es, [])
  | .removed (.protoFn _) => (es, [])
  | .removed (.obj i) =>
      if i.isFile then (removerFile es i.path, [])
      else if i.isDirectory then removerDir es i.path
      else (es, [])

/-- Engine steps.  `runTarget` is `#run` on a registered target (the
UnknownTarget check is the `dirs.isSome` guard); `nativeEvent` is the
native callback of any live watcher; `procStep` processes the front
pending callback; `stopTarget` is `#stop` on a registered target;
`throwStep` covers every uncaught synchronous throw (it only crashes).
Event and scan listings are arbitrary: they are the environment's
choice. -/
inductive EStep (L : Loader) (rn : FsPath) : EState → EState → Prop
  | runTarget (es : EState) (t : FsPath) (w w' : WState) (effs : List WEffect)
      (names : List String) (stat : String → Option StatKind) :
      es.crashed = false → es.pending = [] → t ∈ es.targets →
      lookupKey es.watchers t = some w → w.dirs.isSome →
      watch rn w names stat = .ok (w', effs) →
      EStep L rn es { es with watchers := updateKey es.watchers t w',
                              pending := actsOf effs }
  | nativeEvent (es : EState) (t : FsPath) (w : WState) (ev name : String)
      (stat : Option StatKind) :
      es.crashed = false → es.pending = [] →
      lookupKey es.watchers t = some w → w.watching = true →
      EStep L rn es { es with
        watchers := updateKey es.watchers t (reconcile rn w ev name stat).1,
        pending := (reconcile rn w ev name stat).2 }
  | procStep (es : EState) (a : Action) (rest : List Action)
      (names : List String) (stat : String → Option StatKind) :
      es.crashed = false → es.pending = a :: rest →
      EStep L rn es { (procAction L rn es a names stat).1 with
                      pending := (procAction L rn es a names stat).2 ++ rest }
  | stopTarget (es : EState) (t : FsPath) (w w' : WState) (effs : List WEffect) :
      es.crashed = false → es.pending = [] → t ∈ es.targets →
      lookupKey es.watchers t = some w → w.dirs.isSome →
      stop w = .ok (w', effs) →
      EStep L rn es { es with watchers := updateKey es.watchers t w',
                              pending := actsOf effs }
  | throwStep (es : EState) :
      es.crashed = false →
      EStep L rn es { es with crashed := true }

/-- The engine after construction and `add` of each distinct target: one
registered RECURSIVE root watcher per target, nothing started.  (`add`
rejects duplicate targets with AlreadyWatching, hence the Nodup.) -/
def mkInit (ts : List FsPath) : EState :=
  { targets := ts
    watchers := ts.map (fun t => (t, mkRunWatcher t true))
    loaded := []
    notifs := []
    errors := []
    pending := []
    crashed := false }

/-- Reachable engine states. -/
inductive EReach (L : Loader) (rn : FsPath) : EState → Prop
  | init (ts : List FsPath) : ts.Nodup → EReach L rn (mkInit ts)
  | step (es es' : EState) : EReach L rn es → EStep L rn es es' → EReach L rn es'

/-- Is `p` exactly one segment below `t`? -/
def childOf (t p : FsPath) : Bool :=
  decide (p.length = t.length + 1) && decide (p.take t.length = t)

/-- Is `p` exactly two segments below `t`? -/
def grandchildOf (t p : FsPath) : Bool :=
  decide (p.length = t.length + 2) && decide (p.take t.length = t)

/-- Is the path at depth one or two below one of the targets (a direct
child of a root, or a child of a first-level subdirectory)? -/
def depthOkPath (ts : List FsPath) (p : FsPath) : Bool :=
  ts.any (fun t => childOf t p || grandchildOf t p)

theorem childOf_append (t : FsPath) (d : String) : childOf t (t ++ [d]) = true := by
  simp [childOf, List.take_left]

theorem grandchildOf_step {t p : FsPath} (d : String) (h : childOf t p = true) :
    grandchildOf t (p ++ [d]) = true := by
  unfold childOf at h
  unfold grandchildOf
  rw [Bool.and_eq_true, decide_eq_true_iff, decide_eq_true_iff] at h ⊢
  obtain ⟨hl, ht⟩ := h
  constructor
  · simp [hl]
  · rw [List.take_append_of_le_length (by omega)]
    exact ht

/-- A well-formed entry info describing a child of directory `p`: its
path is `p` plus its name, and `fileInfo` never reports both kinds. -/
def InfoOK (p : FsPath) (i : Info) : Prop :=
  i.path = p ++ [i.name] ∧ ¬(i.isFile = true ∧ i.isDirectory = true)

/-- Every entry of the sorted, stat-ed listing is well formed. -/
theorem scanInfos_props (p : FsPath) (names : List String)
    (stat : String → Option StatKind) :
    ∀ i ∈ scanInfos p names stat, InfoOK p i := by
  intro i hi
  obtain ⟨n, _, hn⟩ := List.mem_map.mp hi
  subst hn
  refine ⟨rfl, ?_⟩
  cases stat n with
  | none => simp [fileInfo]
  | some k => cases k <;> simp [fileInfo]

/-- A file-kinded well-formed info is not directory-kinded. -/
theorem InfoOK_notDir {p : FsPath} {i : Info} (h : InfoOK p i)
    (hf : i.isFile = true) : i.isDirectory = false := by
  cases hd : i.isDirectory
  · rfl
  · exact absurd ⟨hf, hd⟩ h.2

/-- A directory-kinded well-formed info is not file-kinded. -/
theorem InfoOK_notFile {p : FsPath} {i : Info} (h : InfoOK p i)
    (hd : i.isDirectory = true) : i.isFile = false := by
  cases hf : i.isFile
  · rfl
  · exact absurd ⟨hf, hd⟩ h.2

/-- Shape of a watcher callback emitted by the watcher on directory `p`
whose recursive capability is `rec`: an add or remove of a file child, an
add or remove of a directory child (recursive watchers only), or an
inherited Object.prototype member (which the adder/remover ignores). -/
def ActShape (p : FsPath) (rec : Bool) : Action → Prop
  | .added i =>
      (i.isFile = true ∧ i.isDirectory = false ∧ ∃ n, i.path = p ++ [n]) ∨
      (i.isDirectory = true ∧ i.isFile = false ∧ rec = true ∧ ∃ n, i.path = p ++ [n])
  | .removed (.protoFn _) => True
  | .removed (.obj i) =>
      (i.isFile = true ∧ i.isDirectory = false ∧ ∃ n, i.path = p ++ [n]) ∨
      (i.isDirectory = true ∧ i.isFile = false ∧ rec = true ∧ ∃ n, i.path = p ++ [n])

/-- Well-formedness of a watcher registered at `p`: it watches `p`, its
`files` map holds file entries of children of `p` keyed by their names,
and its `directories` map (when present) holds directory entries
likewise. -/
def WFW (p : FsPath) (w : WState) : Prop :=
  w.wpath = p ∧
  (∀ kv ∈ w.files, kv.2.name = kv.1 ∧ kv.2.path = p ++ [kv.1] ∧
    kv.2.isFile = true ∧ kv.2.isDirectory = false) ∧
  (∀ ds, w.dirs = some ds → ∀ kv ∈ ds, kv.2.name = kv.1 ∧ kv.2.path = p ++ [kv.1] ∧
    kv.2.isDirectory = true ∧ kv.2.isFile = false)

theorem WFW_mk (p : FsPath) (b : Bool) : WFW p (mkRunWatcher p b) := by
  refine ⟨rfl, ?_, ?_⟩
  · intro kv hkv
    simp [mkRunWatcher] at hkv
  · intro ds hds kv hkv
    cases b with
    | false => simp [mkRunWatcher] at hds
    | true =>
        have hds2 : some ([] : List (String × Info)) = some ds := hds
        rw [← Option.some.inj hds2] at hkv
        simp at hkv

theorem fileAdded_pres (rn p : FsPath) {s : WState} {i : Info} (hwf : WFW p s)
    (hio : InfoOK p i) (hf : i.isFile = true) :
    WFW p (fileAdded rn s i).1 ∧ (fileAdded rn s i).1.dirs = s.dirs ∧
      (∀ a ∈ (fileAdded rn s i).2, a = Action.added i) := by
  unfold fileAdded
  split
  · refine ⟨⟨hwf.1, ?_, ?_⟩, rfl, ?_⟩
    · intro kv hkv
      rcases List.mem_append.mp hkv with h | h
      · exact hwf.2.1 kv h
      · have : kv = (i.name, i) := by simpa using h
        rw [this]
        exact ⟨rfl, hio.1, hf, InfoOK_notDir hio hf⟩
    · exact hwf.2.2
    · intro a ha
      simpa using ha
  · exact ⟨hwf, rfl, by intro a ha; simp at ha⟩

theorem directoryAdded_pres (p : FsPath) {s : WState} {i : Info} (hwf : WFW p s)
    (hio : InfoOK p i) (hd : i.isDirectory = true) :
    WFW p (directoryAdded s i).1 ∧
      (directoryAdded s i).1.dirs.isSome = s.dirs.isSome ∧
      (directoryAdded s i).1.files = s.files ∧
      (∀ a ∈ (directoryAdded s i).2, a = Action.added i ∧ s.dirs.isSome = true) := by
  unfold directoryAdded
  split
  · rename_i hc
    refine ⟨⟨hwf.1, hwf.2.1, ?_⟩, by simp, rfl, ?_⟩
    · intro ds hds kv hkv
      cases hsd : s.dirs with
      | none => rw [hsd] at hds; simp at hds
      | some ds0 =>
          rw [hsd] at hds
          simp only [Option.map_some', Option.some.injEq] at hds
          rw [← hds] at hkv
          rcases List.mem_append.mp hkv with h | h
          · exact hwf.2.2 ds0 hsd kv h
          · have : kv = (i.name, i) := by simpa using h
            rw [this]
            exact ⟨rfl, hio.1, hd, InfoOK_notFile hio hd⟩
    · intro a ha
      have ha' : a = Action.added i := by simpa using ha
      refine ⟨ha', ?_⟩
      unfold checkDirectory at hc
      rw [Bool.and_eq_true] at hc
      cases hsd : s.dirs with
      | none => rw [hsd] at hc; simp at hc
      | some _ => rfl
  · exact ⟨hwf, rfl, rfl, by intro a ha; simp at ha⟩

theorem fileRemoved_pres (p : FsPath) {s : WState} (v : JVal) (hwf : WFW p s) :
    WFW p (fileRemoved s v).1 ∧ (fileRemoved s v).1.dirs = s.dirs ∧
      (fileRemoved s v).1.watching = s.watching := by
  refine ⟨⟨hwf.1, ?_, hwf.2.2⟩, rfl, rfl⟩
  intro kv hkv
  exact hwf.2.1 kv ((eraseKey_sublist s.files (jvalName v)).subset hkv)

theorem directoryRemoved_pres (p : FsPath) {s : WState} (v : JVal) (hwf : WFW p s) :
    WFW p (directoryRemoved s v).1 ∧
      (directoryRemoved s v).1.dirs.isSome = s.dirs.isSome ∧
      (directoryRemoved s v).1.files = s.files := by
  refine ⟨⟨hwf.1, hwf.2.1, ?_⟩, ?_, rfl⟩
  · intro ds hds kv hkv
    have hds' : s.dirs.map (fun ds => eraseKey ds (jvalName v)) = some ds := hds
    cases hsd : s.dirs with
    | none => rw [hsd] at hds'; simp at hds'
    | some ds0 =>
        rw [hsd] at hds'
        simp only [Option.map_some', Option.some.injEq] at hds'
        rw [← hds'] at hkv
        exact hwf.2.2 ds0 hsd kv ((eraseKey_sublist ds0 _).subset hkv)
  · show (s.dirs.map (fun ds => eraseKey ds (jvalName v))).isSome = s.dirs.isSome
    cases hsd : s.dirs <;> rfl

/-- Shape of the file scan pass: well-formedness is preserved, the
`directories` map is untouched, and every emitted callback is a
well-shaped add. -/
theorem scanFiles_shape (rn p : FsPath) :
    ∀ (infos : List Info) (s : WState), WFW p s → (∀ i ∈ infos, InfoOK p i) →
      WFW p (scanFiles rn s infos).1 ∧ (scanFiles rn s infos).1.dirs = s.dirs ∧
        (∀ a ∈ (scanFiles rn s infos).2, ActShape p s.dirs.isSome a) := by
  intro infos
  induction infos with
  | nil => intro s hwf _; exact ⟨hwf, rfl, by intro a ha; simp [scanFiles] at ha⟩
  | cons i rest ih =>
      intro s hwf hio
      have hioi := hio i (List.mem_cons_self _ _)
      have hior : ∀ j ∈ rest, InfoOK p j := fun j hj => hio j (List.mem_cons_of_mem _ hj)
      have hstep : scanFiles rn s (i :: rest) =
          ((scanFiles rn (if i.isFile then fileAdded rn s i else (s, [])).1 rest).1,
           (if i.isFile then fileAdded rn s i else (s, [])).2 ++
             (scanFiles rn (if i.isFile then fileAdded rn s i else (s, [])).1 rest).2) :=
        rfl
      rw [hstep]
      by_cases hf : i.isFile = true
      · simp only [if_pos hf]
        obtain ⟨hwf', hdirs', hacts'⟩ := fileAdded_pres rn p hwf hioi hf
        obtain ⟨hw2, hd2, ha2⟩ := ih (fileAdded rn s i).1 hwf' hior
        refine ⟨hw2, by rw [hd2, hdirs'], ?_⟩
        intro a ha
        rcases List.mem_append.mp ha with h | h
        · rw [hacts' a h]
          exact Or.inl ⟨hf, InfoOK_notDir hioi hf, i.name, hioi.1⟩
        · have := ha2 a h
          rwa [hdirs'] at this
      · simp only [if_neg hf]
        obtain ⟨hw2, hd2, ha2⟩ := ih s hwf hior
        refine ⟨hw2, hd2, ?_⟩
        intro a ha
        rcases List.mem_append.mp ha with h | h
        · simp at h
        · exact ha2 a h

/-- Shape of the directory scan pass: well-formedness is preserved, the
presence of the `directories` map and the `files` map are untouched, and
every emitted callback is a well-shaped directory add (only possible on a
recursive watcher). -/
theorem scanDirs_shape (p : FsPath) :
    ∀ (infos : List Info) (s : WState), WFW p s → (∀ i ∈ infos, InfoOK p i) →
      WFW p (scanDirs s infos).1 ∧
        (scanDirs s infos).1.dirs.isSome = s.dirs.isSome ∧
        (scanDirs s infos).1.files = s.files ∧
        (∀ a ∈ (scanDirs s infos).2, ActShape p s.dirs.isSome a) := by
  intro infos
  induction infos with
  | nil => intro s hwf _; exact ⟨hwf, rfl, rfl, by intro a ha; simp [scanDirs] at ha⟩
  | cons i rest ih =>
      intro s hwf hio
      have hioi := hio i (List.mem_cons_self _ _)
      have hior : ∀ j ∈ rest, InfoOK p j := fun j hj => hio j (List.mem_cons_of_mem _ hj)
      have hstep : scanDirs s (i :: rest) =
          ((scanDirs (if i.isDirectory then directoryAdded s i else (s, [])).1 rest).1,
           (if i.isDirectory then directoryAdded s i else (s, [])).2 ++
             (scanDirs (if i.isDirectory then directoryAdded s i else (s, [])).1 rest).2) :=
        rfl
      rw [hstep]
      by_cases hd : i.isDirectory = true
      · simp only [if_pos hd]
        obtain ⟨hwf', hsome', hfiles', hacts'⟩ := directoryAdded_pres p hwf hioi hd
        obtain ⟨hw2, hs2, hf2, ha2⟩ := ih (directoryAdded s i).1 hwf' hior
        refine ⟨hw2, by rw [hs2, hsome'], by rw [hf2, hfiles'], ?_⟩
        intro a ha
        rcases List.mem_append.mp ha with h | h
        · obtain ⟨haeq, hsome⟩ := hacts' a h
          rw [haeq]
          exact Or.inr ⟨hd, InfoOK_notFile hioi hd, hsome, i.name, hioi.1⟩
        · have := ha2 a h
          rwa [hsome'] at this
      · simp only [if_neg hd]
        obtain ⟨hw2, hs2, hf2, ha2⟩ := ih s hwf hior
        refine ⟨hw2, hs2, hf2, ?_⟩
        intro a ha
        rcases List.mem_append.mp ha with h | h
        · simp at h
        · exact ha2 a h

/-- Shape of `watch`: on success, well-formedness is preserved, the
handle is installed, the recursive capability is unchanged, and every
emitted callback is a well-shaped add. -/
theorem watch_shape (rn p : FsPath) {s w' : WState} {effs : List WEffect}
    (names : List String) (stat : String → Option StatKind) (hwf : WFW p s)
    (hok : watch rn s names stat = .ok (w', effs)) :
    WFW p w' ∧ w'.dirs.isSome = s.dirs.isSome ∧ w'.watching = true ∧
      (∀ a ∈ actsOf effs, ActShape p s.dirs.isSome a) := by
  unfold watch at hok
  by_cases hw : s.watching = true
  · rw [hw] at hok
    simp at hok
  · rw [Bool.not_eq_true] at hw
    rw [hw] at hok
    simp only [Bool.false_eq_true, if_false, Except.ok.injEq, Prod.mk.injEq] at hok
    obtain ⟨hst, heff⟩ := hok
    have hwf0 : WFW p ({ s with watching := true } : WState) := ⟨hwf.1, hwf.2.1, hwf.2.2⟩
    have hprops : ∀ i ∈ scanInfos s.wpath names stat, InfoOK p i := by
      rw [hwf.1]
      exact scanInfos_props p names stat
    obtain ⟨hwf1, hd1, ha1⟩ := scanFiles_shape rn p (scanInfos s.wpath names stat)
      { s with watching := true } hwf0 hprops
    obtain ⟨hwf2, hs2, hf2, ha2⟩ := scanDirs_shape p (scanInfos s.wpath names stat)
      _ hwf1 hprops
    have hsame : (scanFiles rn { s with watching := true }
        (scanInfos s.wpath names stat)).1.dirs.isSome = s.dirs.isSome := by
      rw [hd1]
    refine ⟨?_, ?_, ?_, ?_⟩
    · rw [← hst]; exact hwf2
    · rw [← hst, hs2, hsame]
    · rw [← hst, scanDirs_watching, scanFiles_watching]
    · intro a ha
      rw [← heff] at ha
      have hacts : actsOf (WEffect.installHandle ::
          ((scanFiles rn { s with watching := true }
            (scanInfos s.wpath names stat)).2.map WEffect.act ++
           (scanDirs (scanFiles rn { s with watching := true }
            (scanInfos s.wpath names stat)).1 (scanInfos s.wpath names stat)).2.map
            WEffect.act)) =
          (scanFiles rn { s with watching := true } (scanInfos s.wpath names stat)).2 ++
          (scanDirs (scanFiles rn { s with watching := true }
            (scanInfos s.wpath names stat)).1 (scanInfos s.wpath names stat)).2 := by
        generalize (scanFiles rn { s with watching := true }
          (scanInfos s.wpath names stat)).2 = l1
        generalize (scanDirs (scanFiles rn { s with watching := true }
          (scanInfos s.wpath names stat)).1 (scanInfos s.wpath names stat)).2 = l2
        show actsOf ((WEffect.installHandle :: l1.map WEffect.act) ++ l2.map WEffect.act) = _
        induction l1 with
        | nil =>
            simp only [List.map_nil, List.nil_append]
            induction l2 with
            | nil => rfl
            | cons b t ihb => simp [actsOf] at ihb ⊢; exact ihb
        | cons b t ihb => simp [actsOf] at ihb ⊢; exact ihb
      rw [hacts] at ha
      rcases List.mem_append.mp ha with h | h
      · have := ha1 a h
        rwa [show ({ s with watching := true } : WState).dirs.isSome = s.dirs.isSome
          from rfl] at this
      · have := ha2 a h
        rwa [hsame] at this

/-- A property read producing an own entry is an own-property lookup. -/
theorem jsGet_obj_inv {m : List (String × Info)} {k : String} {i : Info}
    (h : jsGet m k = some (.obj i)) : lookupKey m k = some i := by
  unfold jsGet at h
  cases hl : lookupKey m k with
  | some j =>
      rw [hl] at h
      simp only [Option.some.injEq, JVal.obj.injEq] at h
      rw [h]
  | none =>
      rw [hl] at h
      by_cases hp : k ∈ objectProtoKeys <;> simp [hp] at h

/-- An entry built by `fileInfo` for a child of `p` is well formed. -/
theorem fileInfo_InfoOK (p : FsPath) (n : String) (st : Option StatKind) :
    InfoOK p (fileInfo (p ++ [n]) n st) := by
  refine ⟨rfl, ?_⟩
  cases st with
  | none => simp [fileInfo]
  | some k => cases k <;> simp [fileInfo]

/-- Shape of the native-callback reconciliation: well-formedness, the
recursive capability and the handle flag are preserved, and every
emitted callback is well shaped. -/
theorem reconcile_shape (rn p : FsPath) (w : WState) (ev name : String)
    (st : Option StatKind) (hwf : WFW p w) :
    WFW p (reconcile rn w ev name st).1 ∧
      (reconcile rn w ev name st).1.dirs.isSome = w.dirs.isSome ∧
      (reconcile rn w ev name st).1.watching = w.watching ∧
      (∀ a ∈ (reconcile rn w ev name st).2, ActShape p w.dirs.isSome a) := by
  have hinfo : InfoOK p (fileInfo (w.wpath ++ [name]) name st) := by
    rw [hwf.1]
    exact fileInfo_InfoOK p name st
  -- characterize the removal part
  have hrem : WFW p (reconcilePre w name st).1 ∧
      (reconcilePre w name st).1.dirs.isSome = w.dirs.isSome ∧
      (reconcilePre w name st).1.watching = w.watching ∧
      (reconcilePre w name st).1.wpath = w.wpath ∧
      (∀ a ∈ (reconcilePre w name st).2, ActShape p w.dirs.isSome a) := by
    rcases hv : jsGet w.files name with _ | v
    · cases hd : w.dirs with
      | none =>
          have h0 : reconcilePre w name st = (w, []) := by
            unfold reconcilePre
            simp [hv, hd]
          rw [h0]
          refine ⟨hwf, ?_, rfl, rfl, by intro a ha; simp at ha⟩
          show w.dirs.isSome = _
          rw [hd]
      | some ds =>
          rcases hv2 : jsGet ds name with _ | v2
          · have h0 : reconcilePre w name st = (w, []) := by
              unfold reconcilePre
              simp [hv, hd, hv2]
            rw [h0]
            refine ⟨hwf, ?_, rfl, rfl, by intro a ha; simp at ha⟩
            show w.dirs.isSome = _
            rw [hd]
          · by_cases hdir : (fileInfo (w.wpath ++ [name]) name st).isDirectory = false
            · have h0 : reconcilePre w name st = directoryRemoved w v2 := by
                unfold reconcilePre
                simp [hv, hd, hv2, hdir]
              rw [h0]
              obtain ⟨hw1, hs1, hf1⟩ := directoryRemoved_pres p v2 hwf
              refine ⟨hw1, by rw [hs1, hd], rfl, rfl, ?_⟩
              intro a ha
              have ha' : a = Action.removed v2 := by simpa [directoryRemoved] using ha
              rw [ha']
              cases v2 with
              | protoFn k => trivial
              | obj i =>
                  have hmem := lookupKey_mem (jsGet_obj_inv hv2)
                  obtain ⟨hn, hp, hd2, hf2⟩ := hwf.2.2 ds hd (name, i) hmem
                  exact Or.inr ⟨hd2, hf2, rfl, name, hp⟩
            · have h0 : reconcilePre w name st = (w, []) := by
                unfold reconcilePre
                simp [hv, hd, hv2, hdir]
              rw [h0]
              refine ⟨hwf, ?_, rfl, rfl, by intro a ha; simp at ha⟩
              show w.dirs.isSome = _
              rw [hd]
    · have h0 : reconcilePre w name st = fileRemoved w v := by
        unfold reconcilePre
        simp [hv]
      rw [h0]
      obtain ⟨hw1, hd1, hwat1⟩ := fileRemoved_pres p v hwf
      refine ⟨hw1, by rw [hd1], hwat1, rfl, ?_⟩
      intro a ha
      have ha' : a = Action.removed v := by simpa [fileRemoved] using ha
      rw [ha']
      cases v with
      | protoFn k => trivial
      | obj i =>
          have hmem := lookupKey_mem (jsGet_obj_inv hv)
          obtain ⟨hn, hp, hf2, hd2⟩ := hwf.2.1 (name, i) hmem
          exact Or.inl ⟨hf2, hd2, name, hp⟩
  obtain ⟨hwfp, hsp, hwp, hpathp, hactsp⟩ := hrem
  have hstep : reconcile rn w ev name st =
      ((if (fileInfo (w.wpath ++ [name]) name st).isFile then
          fileAdded rn (reconcilePre w name st).1 (fileInfo (w.wpath ++ [name]) name st)
        else if (fileInfo (w.wpath ++ [name]) name st).isDirectory then
          directoryAdded (reconcilePre w name st).1 (fileInfo (w.wpath ++ [name]) name st)
        else ((reconcilePre w name st).1, [])).1,
       (reconcilePre w name st).2 ++
        (if (fileInfo (w.wpath ++ [name]) name st).isFile then
          fileAdded rn (reconcilePre w name st).1 (fileInfo (w.wpath ++ [name]) name st)
        else if (fileInfo (w.wpath ++ [name]) name st).isDirectory then
          directoryAdded (reconcilePre w name st).1 (fileInfo (w.wpath ++ [name]) name st)
        else ((reconcilePre w name st).1, [])).2) := rfl
  rw [hstep]
  by_cases hf : (fileInfo (w.wpath ++ [name]) name st).isFile = true
  · simp only [if_pos hf]
    obtain ⟨hwf', hdirs', hacts'⟩ := fileAdded_pres rn p hwfp hinfo hf
    refine ⟨hwf', by rw [hdirs', hsp], by rw [fileAdded_watching]; exact hwp, ?_⟩
    intro a ha
    rcases List.mem_append.mp ha with h | h
    · exact hactsp a h
    · rw [hacts' a h]
      exact Or.inl ⟨hf, InfoOK_notDir hinfo hf, name, hinfo.1.trans rfl⟩
  · by_cases hd : (fileInfo (w.wpath ++ [name]) name st).isDirectory = true
    · simp only [if_neg hf, if_pos hd]
      obtain ⟨hwf', hsome', hfiles', hacts'⟩ := directoryAdded_pres p hwfp hinfo hd
      refine ⟨hwf', by rw [hsome', hsp],
        by rw [directoryAdded_watching]; exact hwp, ?_⟩
      intro a ha
      rcases List.mem_append.mp ha with h | h
      · exact hactsp a h
      · obtain ⟨haeq, hsome⟩ := hacts' a h
        rw [haeq]
        refine Or.inr ⟨hd, InfoOK_notFile hinfo hd, ?_, name, hinfo.1.trans rfl⟩
        rw [← hsp]
        exact hsome
    · simp only [if_neg hf, if_neg hd]
      refine ⟨hwfp, hsp, hwp, ?_⟩
      intro a ha
      rcases List.mem_append.mp ha with h | h
      · exact hactsp a h
      · simp at h

/-- Callback actions of a trace made of two mapped action lists. -/
theorem actsOf_maps (l1 l2 : List Action) :
    actsOf (l1.map WEffect.act ++ l2.map WEffect.act) = l1 ++ l2 := by
  induction l1 with
  | nil =>
      simp only [List.map_nil, List.nil_append]
      induction l2 with
      | nil => rfl
      | cons b t ihb => simp [actsOf, ihb]
  | cons b t ihb => simp [actsOf, ihb]

/-- Shape of the directory teardown pass: well-formedness, the presence
of the `directories` map, the `files` map and the handle flag are
preserved, and every emitted callback is well shaped. -/
theorem removeDirsFold_shape (p : FsPath) :
    ∀ (ks : List String) (s : WState), WFW p s →
      WFW p (removeDirsFold s ks).1 ∧
        (removeDirsFold s ks).1.dirs.isSome = s.dirs.isSome ∧
        (removeDirsFold s ks).1.files = s.files ∧
        (removeDirsFold s ks).1.watching = s.watching ∧
        (∀ a ∈ (removeDirsFold s ks).2, ActShape p s.dirs.isSome a) := by
  intro ks
  induction ks with
  | nil => intro s hwf; exact ⟨hwf, rfl, rfl, rfl, by intro a ha; simp [removeDirsFold] at ha⟩
  | cons k ks' ih =>
      intro s hwf
      cases hd : s.dirs with
      | none =>
          have h0 : removeDirsFold s (k :: ks') =
              ((removeDirsFold s ks').1, (removeDirsFold s ks').2) := by
            simp [removeDirsFold, hd]
          rw [h0]
          obtain ⟨hw1, hs1, hf1, hwa1, ha1⟩ := ih s hwf
          exact ⟨hw1, by rw [hs1, hd], hf1, hwa1, fun a ha => by
            have := ha1 a ha
            rwa [hd] at this⟩
      | some ds =>
          cases hjs : jsGet ds k with
          | none =>
              have h0 : removeDirsFold s (k :: ks') =
                  ((removeDirsFold s ks').1, (removeDirsFold s ks').2) := by
                simp [removeDirsFold, hd, hjs]
              rw [h0]
              obtain ⟨hw1, hs1, hf1, hwa1, ha1⟩ := ih s hwf
              exact ⟨hw1, by rw [hs1, hd], hf1, hwa1, fun a ha => by
                have := ha1 a ha
                rwa [hd] at this⟩
          | some v =>
              have h0 : removeDirsFold s (k :: ks') =
                  ((removeDirsFold (directoryRemoved s v).1 ks').1,
                    Action.removed v ::
                      (removeDirsFold (directoryRemoved s v).1 ks').2) := by
                simp only [removeDirsFold, hd, hjs, directoryRemoved,
                  List.singleton_append]
              rw [h0]
              obtain ⟨hw0, hs0, hf0⟩ := directoryRemoved_pres p v hwf
              obtain ⟨hw1, hs1, hf1, hwa1, ha1⟩ := ih (directoryRemoved s v).1 hw0
              refine ⟨hw1, by rw [hs1, hs0, hd], by rw [hf1, hf0], hwa1, ?_⟩
              intro a ha
              rcases List.mem_cons.mp ha with h | h
              · rw [h]
                cases v with
                | protoFn k0 => trivial
                | obj i =>
                    have hmem := lookupKey_mem (jsGet_obj_inv hjs)
                    obtain ⟨hn, hp, hd2, hf2⟩ := hwf.2.2 ds hd (k, i) hmem
                    exact Or.inr ⟨hd2, hf2, rfl, k, hp⟩
              · have := ha1 a h
                rwa [hs0, hd] at this

/-- Shape of the file teardown pass: well-formedness, the `directories`
map and the handle flag are preserved, and every emitted callback is well
shaped. -/
theorem removeFilesFold_shape (p : FsPath) :
    ∀ (ks : List String) (s : WState), WFW p s →
      WFW p (removeFilesFold s ks).1 ∧
        (removeFilesFold s ks).1.dirs = s.dirs ∧
        (removeFilesFold s ks).1.watching = s.watching ∧
        (∀ a ∈ (removeFilesFold s ks).2, ActShape p s.dirs.isSome a) := by
  intro ks
  induction ks with
  | nil => intro s hwf; exact ⟨hwf, rfl, rfl, by intro a ha; simp [removeFilesFold] at ha⟩
  | cons k ks' ih =>
      intro s hwf
      cases hjs : jsGet s.files k with
      | none =>
          have h0 : removeFilesFold s (k :: ks') =
              ((removeFilesFold s ks').1, (removeFilesFold s ks').2) := by
            simp [removeFilesFold, hjs]
          rw [h0]
          exact ih s hwf
      | some v =>
          have h0 : removeFilesFold s (k :: ks') =
              ((removeFilesFold (fileRemoved s v).1 ks').1,
                Action.removed v :: (removeFilesFold (fileRemoved s v).1 ks').2) := by
            simp only [removeFilesFold, hjs, fileRemoved, List.singleton_append]
          rw [h0]
          obtain ⟨hw0, hd0, hwa0⟩ := fileRemoved_pres p v hwf
          obtain ⟨hw1, hd1, hwa1, ha1⟩ := ih (fileRemoved s v).1 hw0
          refine ⟨hw1, by rw [hd1, hd0], by rw [hwa1, hwa0], ?_⟩
          intro a ha
          rcases List.mem_cons.mp ha with h | h
          · rw [h]
            cases v with
            | protoFn k0 => trivial
            | obj i =>
                have hmem := lookupKey_mem (jsGet_obj_inv hjs)
                obtain ⟨hn, hp, hf2, hd2⟩ := hwf.2.1 (k, i) hmem
                exact Or.inl ⟨hf2, hd2, k, hp⟩
          · have := ha1 a h
            rwa [hd0] at this

/-- Shape of `stop`: on success, well-formedness is preserved, the
recursive capability is unchanged, the handle is released, and every
emitted callback is well shaped. -/
theorem stop_shape (p : FsPath) {s w' : WState} {effs : List WEffect}
    (hwf : WFW p s) (hok : stop s = .ok (w', effs)) :
    WFW p w' ∧ w'.dirs.isSome = s.dirs.isSome ∧ w'.watching = false ∧
      (∀ a ∈ actsOf effs, ActShape p s.dirs.isSome a) := by
  unfold stop at hok
  by_cases hw : s.watching = false
  · rw [hw] at hok
    simp at hok
  · rw [if_neg hw] at hok
    simp only [Except.ok.injEq, Prod.mk.injEq] at hok
    obtain ⟨hst, heff⟩ := hok
    have hwf0 : WFW p ({ s with watching := false } : WState) :=
      ⟨hwf.1, hwf.2.1, hwf.2.2⟩
    cases hd : s.dirs with
    | none =>
        have hds0 : ({ s with watching := false } : WState).dirs = none := hd
        have h0 : (match ({ s with watching := false } : WState).dirs with
            | none => (({ s with watching := false } : WState), ([] : List Action))
            | some ds => removeDirsFold { s with watching := false }
                ((sortNames (ds.map Prod.fst)).reverse)) =
            (({ s with watching := false } : WState), ([] : List Action)) := by
          rw [hds0]
        rw [h0] at hst heff
        dsimp only at hst heff
        obtain ⟨hw1, hd1, hwa1, ha1⟩ := removeFilesFold_shape p
          ((sortNames (s.files.map Prod.fst)).reverse) { s with watching := false } hwf0
        refine ⟨by rw [← hst]; exact hw1, ?_, ?_, ?_⟩
        · rw [← hst, hd1]
          show s.dirs.isSome = _
          rw [hd]
        · rw [← hst, hwa1]
        · intro a ha
          rw [← heff] at ha
          have hred : actsOf (WEffect.closeHandle ::
              (List.map WEffect.act [] ++
               (removeFilesFold { s with watching := false }
                ((sortNames (s.files.map Prod.fst)).reverse)).2.map WEffect.act)) =
              [] ++ (removeFilesFold { s with watching := false }
                ((sortNames (s.files.map Prod.fst)).reverse)).2 := by
            show actsOf (List.map WEffect.act [] ++ _) = _
            exact actsOf_maps [] _
          rw [hred] at ha
          simp only [List.nil_append] at ha
          have h2 : ActShape p s.dirs.isSome a := ha1 a ha
          rwa [hd] at h2
    | some ds =>
        have hds0 : ({ s with watching := false } : WState).dirs = some ds := hd
        have h0 : (match ({ s with watching := false } : WState).dirs with
            | none => (({ s with watching := false } : WState), ([] : List Action))
            | some ds => removeDirsFold { s with watching := false }
                ((sortNames (ds.map Prod.fst)).reverse)) =
            removeDirsFold { s with watching := false }
              ((sortNames (ds.map Prod.fst)).reverse) := by
          rw [hds0]
        rw [h0] at hst heff
        obtain ⟨hwA, hsA, hfA, hwaA, haA⟩ := removeDirsFold_shape p
          ((sortNames (ds.map Prod.fst)).reverse) { s with watching := false } hwf0
        obtain ⟨hwB, hdB, hwaB, haB⟩ := removeFilesFold_shape p
          ((sortNames ((removeDirsFold { s with watching := false }
            ((sortNames (ds.map Prod.fst)).reverse)).1.files.map Prod.fst)).reverse)
          _ hwA
        refine ⟨by rw [← hst]; exact hwB, ?_, ?_, ?_⟩
        · rw [← hst, hdB, hsA]
          show s.dirs.isSome = _
          rw [hd]
        · rw [← hst, hwaB, hwaA]
        · intro a ha
          rw [← heff] at ha
          have hact : actsOf (WEffect.closeHandle ::
              ((removeDirsFold { s with watching := false }
                ((sortNames (ds.map Prod.fst)).reverse)).2.map WEffect.act ++
               (removeFilesFold (removeDirsFold { s with watching := false }
                 ((sortNames (ds.map Prod.fst)).reverse)).1
                ((sortNames ((removeDirsFold { s with watching := false }
                  ((sortNames (ds.map Prod.fst)).reverse)).1.files.map
                    Prod.fst)).reverse)).2.map WEffect.act)) = _ ++ _ :=
            actsOf_maps _ _
          rw [hact] at ha
          rcases List.mem_append.mp ha with h | h
          · have h2 : ActShape p s.dirs.isSome a := haA a h
            rwa [hd] at h2
          · have h2 := haB a h
            rw [hsA] at h2
            have h3 : ActShape p s.dirs.isSome a := h2
            rwa [hd] at h3

theorem depthOk_child {ts : List FsPath} {t p : FsPath} (ht : t ∈ ts)
    (h : childOf t p = true) : depthOkPath ts p = true := by
  unfold depthOkPath
  rw [List.any_eq_true]
  exact ⟨t, ht, by rw [Bool.or_eq_true]; exact Or.inl h⟩

theorem depthOk_grand {ts : List FsPath} {t p : FsPath} (ht : t ∈ ts)
    (h : grandchildOf t p = true) : depthOkPath ts p = true := by
  unfold depthOkPath
  rw [List.any_eq_true]
  exact ⟨t, ht, by rw [Bool.or_eq_true]; exact Or.inr h⟩

/-- Shape of a pending watcher callback relative to the registered
targets: a file entry at depth one or two below a target, or a directory
entry exactly one level below a target, or an ignored inherited value. -/
def PendOK (ts : List FsPath) : Action → Prop
  | .added i =>
      (i.isFile = true ∧ i.isDirectory = false ∧ depthOkPath ts i.path = true) ∨
      (i.isDirectory = true ∧ i.isFile = false ∧
        ts.any (fun t => childOf t i.path) = true)
  | .removed (.protoFn _) => True
  | .removed (.obj i) =>
      (i.isFile = true ∧ i.isDirectory = false ∧ depthOkPath ts i.path = true) ∨
      (i.isDirectory = true ∧ i.isFile = false ∧
        ts.any (fun t => childOf t i.path) = true)

/-- A well-shaped callback of a ROOT watcher is a well-shaped pending
action. -/
theorem ActShape_PendOK_root {ts : List FsPath} {p : FsPath} {rec : Bool} {a : Action}
    (hp : p ∈ ts) (hsh : ActShape p rec a) : PendOK ts a := by
  have hchild : ∀ n : String, ts.any (fun t => childOf t (p ++ [n])) = true := by
    intro n
    rw [List.any_eq_true]
    exact ⟨p, hp, childOf_append p n⟩
  cases a with
  | added i =>
      rcases hsh with ⟨hf, hd, n, hn⟩ | ⟨hd, hf, _, n, hn⟩
      · exact Or.inl ⟨hf, hd, by rw [hn]; exact depthOk_child hp (childOf_append p n)⟩
      · exact Or.inr ⟨hd, hf, by rw [hn]; exact hchild n⟩
  | removed v =>
      cases v with
      | protoFn k => trivial
      | obj i =>
          rcases hsh with ⟨hf, hd, n, hn⟩ | ⟨hd, hf, _, n, hn⟩
          · exact Or.inl ⟨hf, hd, by rw [hn]; exact depthOk_child hp (childOf_append p n)⟩
          · exact Or.inr ⟨hd, hf, by rw [hn]; exact hchild n⟩

/-- A well-shaped callback of a NON-recursive first-level watcher is a
well-shaped pending action (it can only concern files, at depth two). -/
theorem ActShape_PendOK_child {ts : List FsPath} {t p : FsPath} {a : Action}
    (ht : t ∈ ts) (hc : childOf t p = true) (hsh : ActShape p false a) :
    PendOK ts a := by
  cases a with
  | added i =>
      rcases hsh with ⟨hf, hd, n, hn⟩ | ⟨_, _, hrec, _⟩
      · exact Or.inl ⟨hf, hd, by rw [hn]; exact depthOk_grand ht (grandchildOf_step n hc)⟩
      · exact absurd hrec (by decide)
  | removed v =>
      cases v with
      | protoFn k => trivial
      | obj i =>
          rcases hsh with ⟨hf, hd, n, hn⟩ | ⟨_, _, hrec, _⟩
          · exact Or.inl ⟨hf, hd,
              by rw [hn]; exact depthOk_grand ht (grandchildOf_step n hc)⟩
          · exact absurd hrec (by decide)

/-- An option with a false `isSome` is `none`. -/
theorem opt_none_of_isSome_false {α : Type} {x : Option α} (h : x.isSome = false) :
    x = none := by
  cases x with
  | none => rfl
  | some _ => simp at h

/-- The engine invariant: distinct targets and registry keys; every
registered watcher is either a recursive root at a target path or a
non-recursive watcher at a first-level subdirectory of a target; every
target keeps its recursive root watcher registered; every watcher is
well formed; every pending callback and every emitted notification is
within the depth cap. -/
structure EInv (es : EState) : Prop where
  tnd : es.targets.Nodup
  keysnd : (es.watchers.map Prod.fst).Nodup
  wshape : ∀ pw ∈ es.watchers,
    (pw.1 ∈ es.targets ∧ pw.2.dirs.isSome = true) ∨
    (es.targets.any (fun t => childOf t pw.1) = true ∧ pw.2.dirs = none)
  troot : ∀ t ∈ es.targets, ∃ w, lookupKey es.watchers t = some w ∧
    w.dirs.isSome = true
  wf : ∀ pw ∈ es.watchers, WFW pw.1 pw.2
  pend : ∀ a ∈ es.pending, PendOK es.targets a
  nshape : ∀ n ∈ es.notifs, depthOkPath es.targets (npath n) = true

/-- Generic preservation: replacing a registered watcher's state with a
well-formed one of the same recursive capability and refilling the
pending queue with well-shaped actions preserves the invariant. -/
theorem inv_update_watcher {es : EState} (hinv : EInv es) {t : FsPath} {w w' : WState}
    (hlk : lookupKey es.watchers t = some w) (hwf' : WFW t w')
    (hsome : w'.dirs.isSome = w.dirs.isSome) (newPending : List Action)
    (hpend : ∀ a ∈ newPending, PendOK es.targets a) :
    EInv { es with watchers := updateKey es.watchers t w', pending := newPending } := by
  refine ⟨hinv.tnd, ?_, ?_, ?_, ?_, ?_, ?_⟩
  · show (List.map Prod.fst (updateKey es.watchers t w')).Nodup
    rw [updateKey_keys]
    exact hinv.keysnd
  · intro pw hpw
    rcases mem_updateKey hpw with h | h
    · exact hinv.wshape pw h
    · rcases hinv.wshape (t, w) (lookupKey_mem hlk) with ⟨ht, hs⟩ | ⟨hc, hn⟩
      · left
        rw [h]
        refine ⟨ht, ?_⟩
        show w'.dirs.isSome = true
        rw [hsome]
        exact hs
      · right
        rw [h]
        have hn' : w.dirs = none := hn
        exact ⟨hc, opt_none_of_isSome_false (by rw [hsome, hn']; rfl)⟩
  · intro t' ht'
    obtain ⟨w0, hw0, hs0⟩ := hinv.troot t' ht'
    by_cases he : t = t'
    · subst he
      have hww : w0 = w := Option.some.inj (hw0.symm.trans hlk)
      exact ⟨w', lookupKey_updateKey_self w' hlk,
        by rw [hsome, ← hww]; exact hs0⟩
    · exact ⟨w0, by rw [lookupKey_updateKey_ne es.watchers w' he]; exact hw0, hs0⟩
  · intro pw hpw
    rcases mem_updateKey hpw with h | h
    · exact hinv.wf pw h
    · rw [h]
      exact hwf'
  · exact hpend
  · exact hinv.nshape

/-- Preservation for `#run` on a target. -/
theorem inv_runTarget {L : Loader} {rn : FsPath} {es : EState} (hinv : EInv es)
    {t : FsPath} {w w' : WState} {effs : List WEffect} {names : List String}
    {stat : String → Option StatKind} (ht : t ∈ es.targets)
    (hlk : lookupKey es.watchers t = some w)
    (hok : watch rn w names stat = .ok (w', effs)) :
    EInv { es with watchers := updateKey es.watchers t w',
                   pending := actsOf effs } := by
  have hwf := hinv.wf (t, w) (lookupKey_mem hlk)
  obtain ⟨hwfw, hsome, _, hacts⟩ := watch_shape rn t names stat hwf hok
  refine inv_update_watcher hinv hlk hwfw hsome _ ?_
  intro a ha
  exact ActShape_PendOK_root ht (hacts a ha)

/-- Preservation for a native callback delivered to a watcher. -/
theorem inv_nativeEvent {rn : FsPath} {es : EState} (hinv : EInv es)
    {t : FsPath} {w : WState} (ev name : String) (stat : Option StatKind)
    (hlk : lookupKey es.watchers t = some w) :
    EInv { es with
      watchers := updateKey es.watchers t (reconcile rn w ev name stat).1,
      pending := (reconcile rn w ev name stat).2 } := by
  have hwf := hinv.wf (t, w) (lookupKey_mem hlk)
  obtain ⟨hwfw, hsome, _, hacts⟩ := reconcile_shape rn t w ev name stat hwf
  refine inv_update_watcher hinv hlk hwfw hsome _ ?_
  intro a ha
  rcases hinv.wshape (t, w) (lookupKey_mem hlk) with ⟨htm, hs⟩ | ⟨hc, hn⟩
  · exact ActShape_PendOK_root htm (hacts a ha)
  · obtain ⟨t0, ht0, hc0⟩ := List.any_eq_true.mp hc
    have hsh := hacts a ha
    rw [show w.dirs.isSome = false from by rw [hn]; rfl] at hsh
    exact ActShape_PendOK_child ht0 hc0 hsh

/-- Preservation for `#stop` on a target. -/
theorem inv_stopTarget {es : EState} (hinv : EInv es)
    {t : FsPath} {w w' : WState} {effs : List WEffect} (ht : t ∈ es.targets)
    (hlk : lookupKey es.watchers t = some w) (hok : stop w = .ok (w', effs)) :
    EInv { es with watchers := updateKey es.watchers t w',
                   pending := actsOf effs } := by
  have hwf := hinv.wf (t, w) (lookupKey_mem hlk)
  obtain ⟨hwfw, hsome, _, hacts⟩ := stop_shape t hwf hok
  refine inv_update_watcher hinv hlk hwfw hsome _ ?_
  intro a ha
  exact ActShape_PendOK_root ht (hacts a ha)

/-- Every notification appended by the adder's file branch concerns the
loaded path. -/
theorem mem_loadNotifs {a : Artifact} {p : FsPath} {n : NEvent}
    (h : n ∈ (if a.hasOnLoad then [NEvent.hookLoad p] else []) ++ [NEvent.load p]) :
    npath n = p := by
  rcases List.mem_append.mp h with h | h
  · split at h
    · have hn : n = NEvent.hookLoad p := by simpa using h
      rw [hn]; rfl
    · simp at h
  · have hn : n = NEvent.load p := by simpa using h
    rw [hn]; rfl

/-- Every notification appended by the remover's file branch concerns the
evicted path. -/
theorem mem_unloadNotifs {a : Artifact} {p : FsPath} {n : NEvent}
    (h : n ∈ NEvent.unload p ::
      (if a.hasOnUnload then [NEvent.hookUnload p] else [])) :
    npath n = p := by
  rcases List.mem_cons.mp h with h | h
  · rw [h]; rfl
  · split at h
    · have hn : n = NEvent.hookUnload p := by simpa using h
      rw [hn]; rfl
    · simp at h

/-- The adder's file branch only appends notifications and errors for the
loaded path and touches nothing else the invariant tracks. -/
theorem adderFile_parts (L : Loader) (es : EState) (p : FsPath) :
    (adderFile L es p).targets = es.targets ∧
    (adderFile L es p).watchers = es.watchers ∧
    (adderFile L es p).pending = es.pending ∧
    (∀ n ∈ (adderFile L es p).notifs, n ∈ es.notifs ∨ npath n = p) := by
  unfold adderFile
  cases lookupKey es.loaded p with
  | some a =>
      refine ⟨rfl, rfl, rfl, ?_⟩
      intro n hn
      rcases List.mem_append.mp hn with h | h
      · exact Or.inl h
      · exact Or.inr (mem_loadNotifs h)
  | none =>
      cases L p with
      | none => exact ⟨rfl, rfl, rfl, fun n hn => Or.inl hn⟩
      | some a =>
          refine ⟨rfl, rfl, rfl, ?_⟩
          intro n hn
          rcases List.mem_append.mp hn with h | h
          · exact Or.inl h
          · exact Or.inr (mem_loadNotifs h)

/-- The remover's file branch only appends notifications for the evicted
path and touches nothing else the invariant tracks. -/
theorem removerFile_parts (es : EState) (p : FsPath) :
    (removerFile es p).targets = es.targets ∧
    (removerFile es p).watchers = es.watchers ∧
    (removerFile es p).pending = es.pending ∧
    (∀ n ∈ (removerFile es p).notifs, n ∈ es.notifs ∨ npath n = p) := by
  unfold removerFile
  cases lookupKey es.loaded p with
  | none => exact ⟨rfl, rfl, rfl, fun n hn => Or.inl hn⟩
  | some a =>
      refine ⟨rfl, rfl, rfl, ?_⟩
      intro n hn
      rcases List.mem_append.mp hn with h | h
      · exact Or.inl h
      · exact Or.inr (mem_unloadNotifs h)

/-- Refilling the pending queue with well-shaped actions (and possibly
crashing) preserves the invariant. -/
theorem inv_set_pending {es : EState} (hinv : EInv es) (rest : List Action)
    (hrest : ∀ x ∈ rest, PendOK es.targets x) (c : Bool) :
    EInv { es with pending := rest, crashed := c } :=
  ⟨hinv.tnd, hinv.keysnd, hinv.wshape, hinv.troot, hinv.wf, hrest, hinv.nshape⟩

/-- Preservation for processing one pending callback through the
adder/remover pair. -/
theorem inv_procStep {L : Loader} {rn : FsPath} {es : EState} (hinv : EInv es)
    (a : Action) (rest : List Action) (names : List String)
    (stat : String → Option StatKind) (hpnd : es.pending = a :: rest) :
    EInv { (procAction L rn es a names stat).1 with
           pending := (procAction L rn es a names stat).2 ++ rest } := by
  have hpa : PendOK es.targets a := hinv.pend a (by rw [hpnd]; exact List.mem_cons_self _ _)
  have hrest : ∀ x ∈ rest, PendOK es.targets x :=
    fun x hx => hinv.pend x (by rw [hpnd]; exact List.mem_cons_of_mem _ hx)
  cases a with
  | added i =>
      by_cases hf : i.isFile = true
      · have hstep : procAction L rn es (.added i) names stat =
            (adderFile L es i.path, []) := by
          simp [procAction, hf]
        rw [hstep]
        obtain ⟨hT, hW, hP, hN⟩ := adderFile_parts L es i.path
        have hdepth : depthOkPath es.targets i.path = true := by
          rcases hpa with ⟨_, _, h⟩ | ⟨_, hnf, _⟩
          · exact h
          · rw [hf] at hnf; exact absurd hnf (by decide)
        refine ⟨?_, ?_, ?_, ?_, ?_, ?_, ?_⟩
        · show (adderFile L es i.path).targets.Nodup
          rw [hT]; exact hinv.tnd
        · show ((adderFile L es i.path).watchers.map Prod.fst).Nodup
          rw [hW]; exact hinv.keysnd
        · show ∀ pw ∈ (adderFile L es i.path).watchers, _
          rw [hW]
          intro pw hpw
          rcases hinv.wshape pw hpw with h | h
          · exact Or.inl (by rw [hT]; exact h)
          · exact Or.inr (by rw [hT]; exact h)
        · show ∀ t ∈ (adderFile L es i.path).targets, _
          rw [hT, hW]
          exact hinv.troot
        · show ∀ pw ∈ (adderFile L es i.path).watchers, _
          rw [hW]
          exact hinv.wf
        · show ∀ x ∈ [] ++ rest, PendOK (adderFile L es i.path).targets x
          rw [hT]
          simpa using hrest
        · show ∀ n ∈ (adderFile L es i.path).notifs, _
          rw [hT]
          intro n hn
          rcases hN n hn with h | h
          · exact hinv.nshape n h
          · rw [h]; exact hdepth
      · by_cases hd : i.isDirectory = true
        · have hdir : ∃ t ∈ es.targets, childOf t i.path = true := by
            rcases hpa with ⟨hif, _, _⟩ | ⟨_, _, hany⟩
            · exact absurd hif hf
            · exact List.any_eq_true.mp hany
          obtain ⟨t0, ht0, hc0⟩ := hdir
          have hstep : procAction L rn es (.added i) names stat =
              adderDir rn es i.path names stat := by
            simp [procAction, hf, hd]
          rw [hstep]
          by_cases hreg : (lookupKey es.watchers i.path).isSome = true
          · have h1 : adderDir rn es i.path names stat = (es, []) := by
              unfold adderDir
              rw [if_pos hreg]
            rw [h1]
            exact inv_set_pending hinv _ (by simpa using hrest) es.crashed
          · have hreg' : ¬ ((lookupKey es.watchers i.path).isSome = true) := hreg
            cases hw : watch rn (mkRunWatcher i.path false) names stat with
            | error e =>
                have h1 : adderDir rn es i.path names stat =
                    ({ es with crashed := true }, []) := by
                  unfold adderDir
                  rw [if_neg hreg', hw]
                rw [h1]
                exact inv_set_pending hinv _ (by simpa using hrest) true
            | ok res =>
                obtain ⟨w, effs⟩ := res
                have h1 : adderDir rn es i.path names stat =
                    ({ es with watchers := es.watchers ++ [(i.path, w)] },
                      actsOf effs) := by
                  unfold adderDir
                  rw [if_neg hreg', hw]
                rw [h1]
                obtain ⟨hwfw, hsome, _, hacts⟩ :=
                  watch_shape rn i.path names stat (WFW_mk i.path false) hw
                have hwnone : w.dirs = none :=
                  opt_none_of_isSome_false (by rw [hsome]; rfl)
                have hnotmem : i.path ∉ es.watchers.map Prod.fst := by
                  intro hm
                  exact hreg (lookupKey_isSome_of_mem_keys hm)
                refine ⟨hinv.tnd, ?_, ?_, ?_, ?_, ?_, hinv.nshape⟩
                · show ((es.watchers ++ [(i.path, w)]).map Prod.fst).Nodup
                  rw [List.map_append]
                  refine List.Nodup.append hinv.keysnd (List.nodup_singleton _) ?_
                  intro x hx hx2
                  have : x = i.path := by simpa using hx2
                  rw [this] at hx
                  exact hnotmem hx
                · intro pw hpw
                  rcases List.mem_append.mp hpw with h | h
                  · exact hinv.wshape pw h
                  · have hp : pw = (i.path, w) := by simpa using h
                    rw [hp]
                    exact Or.inr ⟨List.any_eq_true.mpr ⟨t0, ht0, hc0⟩, hwnone⟩
                · intro t ht
                  obtain ⟨w0, hw0, hs0⟩ := hinv.troot t ht
                  refine ⟨w0, ?_, hs0⟩
                  rw [lookupKey_append, hw0]
                · intro pw hpw
                  rcases List.mem_append.mp hpw with h | h
                  · exact hinv.wf pw h
                  · have hp : pw = (i.path, w) := by simpa using h
                    rw [hp]
                    exact hwfw
                · intro x hx
                  rcases List.mem_append.mp hx with h | h
                  · have hsh := hacts x h
                    rw [show (mkRunWatcher i.path false).dirs.isSome = false from rfl]
                      at hsh
                    exact ActShape_PendOK_child ht0 hc0 hsh
                  · exact hrest x h
        · have hstep : procAction L rn es (.added i) names stat = (es, []) := by
            simp [procAction, hf, hd]
          rw [hstep]
          exact inv_set_pending hinv _ (by simpa using hrest) es.crashed
  | removed v =>
      cases v with
      | protoFn k =>
          have hstep : procAction L rn es (.removed (.protoFn k)) names stat =
              (es, []) := by
            simp [procAction]
          rw [hstep]
          exact inv_set_pending hinv _ (by simpa using hrest) es.crashed
      | obj i =>
          by_cases hf : i.isFile = true
          · have hstep : procAction L rn es (.removed (.obj i)) names stat =
                (removerFile es i.path, []) := by
              simp [procAction, hf]
            rw [hstep]
            obtain ⟨hT, hW, hP, hN⟩ := removerFile_parts es i.path
            have hdepth : depthOkPath es.targets i.path = true := by
              rcases hpa with ⟨_, _, h⟩ | ⟨_, hnf, _⟩
              · exact h
              · rw [hf] at hnf; exact absurd hnf (by decide)
            refine ⟨?_, ?_, ?_, ?_, ?_, ?_, ?_⟩
            · show (removerFile es i.path).targets.Nodup
              rw [hT]; exact hinv.tnd
            · show ((removerFile es i.path).watchers.map Prod.fst).Nodup
              rw [hW]; exact hinv.keysnd
            · show ∀ pw ∈ (removerFile es i.path).watchers, _
              rw [hW]
              intro pw hpw
              rcases hinv.wshape pw hpw with h | h
              · exact Or.inl (by rw [hT]; exact h)
              · exact Or.inr (by rw [hT]; exact h)
            · show ∀ t ∈ (removerFile es i.path).targets, _
              rw [hT, hW]
              exact hinv.troot
            · show ∀ pw ∈ (removerFile es i.path).watchers, _
              rw [hW]
              exact hinv.wf
            · show ∀ x ∈ [] ++ rest, PendOK (removerFile es i.path).targets x
              rw [hT]
              simpa using hrest
            · show ∀ n ∈ (removerFile es i.path).notifs, _
              rw [hT]
              intro n hn
              rcases hN n hn with h | h
              · exact hinv.nshape n h
              · rw [h]; exact hdepth
          · by_cases hd : i.isDirectory = true
            · have hstep : procAction L rn es (.removed (.obj i)) names stat =
                  removerDir es i.path := by
                simp [procAction, hf, hd]
              rw [hstep]
              cases hlkw : lookupKey es.watchers i.path with
              | none =>
                  have h1 : removerDir es i.path = ({ es with crashed := true }, []) := by
                    simp [removerDir, hlkw]
                  rw [h1]
                  exact inv_set_pending hinv _ (by simpa using hrest) true
              | some w =>
                  cases hsw : stop w with
                  | error e =>
                      have h1 : removerDir es i.path =
                          ({ es with crashed := true }, []) := by
                        simp [removerDir, hlkw, hsw]
                      rw [h1]
                      exact inv_set_pending hinv _ (by simpa using hrest) true
                  | ok res =>
                      obtain ⟨w', effs⟩ := res
                      have hwfw := hinv.wf (i.path, w) (lookupKey_mem hlkw)
                      obtain ⟨hwf', hsome', _, hacts⟩ := stop_shape i.path hwfw hsw
                      have hpendAll : ∀ x ∈ actsOf effs ++ rest,
                          PendOK es.targets x := by
                        intro x hx
                        rcases List.mem_append.mp hx with h | h
                        · rcases hinv.wshape (i.path, w) (lookupKey_mem hlkw) with
                            ⟨htm, hs⟩ | ⟨hcm, hnm⟩
                          · exact ActShape_PendOK_root htm (hacts x h)
                          · obtain ⟨t0, ht0, hc0⟩ := List.any_eq_true.mp hcm
                            have hsh := hacts x h
                            have hnm' : w.dirs = none := hnm
                            rw [show w.dirs.isSome = false from by rw [hnm']; rfl]
                              at hsh
                            exact ActShape_PendOK_child ht0 hc0 hsh
                        · exact hrest x h
                      by_cases hnone : w'.dirs = none
                      · have h1 : removerDir es i.path =
                            ({ es with watchers :=
                                eraseKey (updateKey es.watchers i.path w') i.path },
                              actsOf effs) := by
                          simp [removerDir, hlkw, hsw, hnone]
                        rw [h1]
                        have hne : ∀ t ∈ es.targets, t ≠ i.path := by
                          intro t ht he
                          obtain ⟨w0, hw0, hs0⟩ := hinv.troot t ht
                          rw [he] at hw0
                          have hww : w0 = w := Option.some.inj (hw0.symm.trans hlkw)
                          rw [hww] at hs0
                          rw [← hsome'] at hs0
                          rw [hnone] at hs0
                          exact absurd hs0 (by decide)
                        have hsub : List.Sublist
                            (eraseKey (updateKey es.watchers i.path w') i.path)
                            (updateKey es.watchers i.path w') :=
                          eraseKey_sublist _ _
                        refine ⟨hinv.tnd, ?_, ?_, ?_, ?_, hpendAll, hinv.nshape⟩
                        · exact List.Nodup.sublist (List.Sublist.map Prod.fst hsub)
                            (by rw [updateKey_keys]; exact hinv.keysnd)
                        · intro pw hpw
                          rcases mem_updateKey (hsub.subset hpw) with h | h
                          · exact hinv.wshape pw h
                          · rcases hinv.wshape (i.path, w) (lookupKey_mem hlkw) with
                              ⟨htm, _⟩ | ⟨hcm, _⟩
                            · exact absurd rfl (hne i.path htm)
                            · right
                              rw [h]
                              exact ⟨hcm, hnone⟩
                        · intro t ht
                          obtain ⟨w0, hw0, hs0⟩ := hinv.troot t ht
                          refine ⟨w0, ?_, hs0⟩
                          rw [lookupKey_eraseKey_ne _ (fun he => hne t ht he.symm),
                            lookupKey_updateKey_ne _ w' (fun he => hne t ht he.symm)]
                          exact hw0
                        · intro pw hpw
                          rcases mem_updateKey (hsub.subset hpw) with h | h
                          · exact hinv.wf pw h
                          · rw [h]
                            exact hwf'
                      · have h1 : removerDir es i.path =
                            ({ es with watchers := updateKey es.watchers i.path w' },
                              actsOf effs) := by
                          simp [removerDir, hlkw, hsw, hnone]
                        rw [h1]
                        exact inv_update_watcher hinv hlkw hwf' hsome' _ hpendAll
            · have hstep : procAction L rn es (.removed (.obj i)) names stat =
                  (es, []) := by
                simp [procAction, hf, hd]
              rw [hstep]
              exact inv_set_pending hinv _ (by simpa using hrest) es.crashed

/-- The engine invariant is preserved by every engine step. -/
theorem inv_step {L : Loader} {rn : FsPath} {es es' : EState} (hinv : EInv es)
    (hstep : EStep L rn es es') : EInv es' := by
  cases hstep with
  | runTarget t w w' effs names stat _ _ ht hlk _ hok =>
      exact inv_runTarget (L := L) hinv ht hlk hok
  | nativeEvent t w ev name stat _ _ hlk _ =>
      exact inv_nativeEvent hinv ev name stat hlk
  | procStep a rest names stat _ hpnd =>
      exact inv_procStep hinv a rest names stat hpnd
  | stopTarget t w w' effs _ _ ht hlk _ hok =>
      exact inv_stopTarget hinv ht hlk hok
  | throwStep _ =>
      exact ⟨hinv.tnd, hinv.keysnd, hinv.wshape, hinv.troot, hinv.wf,
        hinv.pend, hinv.nshape⟩

/-- The engine invariant holds in the initial state built from distinct
targets. -/
theorem inv_init (ts : List FsPath) (hnd : ts.Nodup) : EInv (mkInit ts) := by
  refine ⟨hnd, ?_, ?_, ?_, ?_, ?_, ?_⟩
  · show ((ts.map (fun t => (t, mkRunWatcher t true))).map Prod.fst).Nodup
    rw [List.map_map]
    have he : (Prod.fst ∘ fun t : FsPath => (t, mkRunWatcher t true)) = id := rfl
    rw [he, List.map_id]
    exact hnd
  · intro pw hpw
    obtain ⟨t, ht, hp⟩ := List.mem_map.mp hpw
    rw [← hp]
    exact Or.inl ⟨ht, rfl⟩
  · intro t ht
    exact ⟨mkRunWatcher t true, lookupKey_map_pair (fun t => mkRunWatcher t true) ts t ht, rfl⟩
  · intro pw hpw
    obtain ⟨t, ht, hp⟩ := List.mem_map.mp hpw
    rw [← hp]
    exact WFW_mk t true
  · intro a ha
    exact absurd ha (List.not_mem_nil a)
  · intro n hn
    exact absurd hn (List.not_mem_nil n)

/-- The engine invariant holds in every reachable state. -/
theorem inv_reach {L : Loader} {rn : FsPath} {es : EState}
    (hr : EReach L rn es) : EInv es := by
  induction hr with
  | init ts hnd => exact inv_init ts hnd
  | step es es' _ hstep ih => exact inv_step ih hstep

/-- C6: watch depth is capped at one level.  (1) For every directory path
with no registered watcher, the adder's directory branch creates a
NON-recursive watcher (`directories` absent, `dirs = none`), registers it
under the path, and starts it (its scan callbacks are the very actions
the step relation feeds back through the same adder/remover pair).
(2) In every reachable engine state, every registered watcher that is not
a root target sits at a first-level subdirectory of a target, is
non-recursive, and its `checkDirectory` rejects every name — so no
directory that appears inside it is ever recorded or watched.  (3) Every
notification emitted in a reachable state references a path at depth one
or two below a target, never the contents of a second-level directory. -/
theorem c6_depth_capped {L : Loader} {rn : FsPath} {es : EState}
    (hr : EReach L rn es) :
    (∀ (es0 : EState) (p : FsPath) (names : List String)
        (stat : String → Option StatKind),
      lookupKey es0.watchers p = none →
      ∃ w effs, watch rn (mkRunWatcher p false) names stat = Except.ok (w, effs) ∧
        (adderDir rn es0 p names stat).1.watchers = es0.watchers ++ [(p, w)] ∧
        (adderDir rn es0 p names stat).2 = actsOf effs ∧
        w.dirs = none ∧ w.watching = true) ∧
    (∀ pw ∈ es.watchers, pw.1 ∉ es.targets →
      es.targets.any (fun t => childOf t pw.1) = true ∧ pw.2.dirs = none ∧
      ∀ name, checkDirectory pw.2 name = false) ∧
    (∀ n ∈ es.notifs, depthOkPath es.targets (npath n) = true) := by
  have hinv := inv_reach hr
  refine ⟨?_, ?_, hinv.nshape⟩
  · intro es0 p names stat hnone
    cases hw : watch rn (mkRunWatcher p false) names stat with
    | error e =>
        exfalso
        unfold watch at hw
        simp [mkRunWatcher] at hw
    | ok res =>
        obtain ⟨w, effs⟩ := res
        obtain ⟨_, hsome, hwtc, _⟩ :=
          watch_shape rn p names stat (WFW_mk p false) hw
        have hni : ¬ ((lookupKey es0.watchers p).isSome = true) := by
          rw [hnone]; decide
        have h1 : adderDir rn es0 p names stat =
            ({ es0 with watchers := es0.watchers ++ [(p, w)] }, actsOf effs) := by
          unfold adderDir
          rw [if_neg hni, hw]
        refine ⟨w, effs, rfl, ?_, ?_, ?_, hwtc⟩
        · rw [h1]
        · rw [h1]
        · exact opt_none_of_isSome_false
            (by rw [hsome]; rfl)
  · intro pw hpw hnt
    rcases hinv.wshape pw hpw with ⟨ht, _⟩ | ⟨hc, hn⟩
    · exact absurd ht hnt
    · refine ⟨hc, hn, ?_⟩
      intro name
      simp [checkDirectory, hn]

/-- C6 witness: the conclusion at the concrete reachable state with the
single root target `["r"]`, with the creation conjunct instantiated at the
first-level subdirectory `["r", "sub"]`. -/
theorem c6_witness :
    ∃ w effs,
      watch ([] : FsPath) (mkRunWatcher (["r", "sub"]) false) ([] : List String)
          (fun _ => none) = Except.ok (w, effs) ∧
      (adderDir ([] : FsPath) (mkInit [(["r"])]) (["r", "sub"]) []
          (fun _ => none)).1.watchers
        = (mkInit [(["r"])]).watchers ++ [((["r", "sub"]), w)] ∧
      (adderDir ([] : FsPath) (mkInit [(["r"])]) (["r", "sub"]) []
          (fun _ => none)).2 = actsOf effs ∧
      w.dirs = none ∧ w.watching = true :=
  (c6_depth_capped (@EReach.init (fun _ => none) ([]) ([(["r"])]) (by decide))).1
    (mkInit [(["r"])]) (["r", "sub"]) [] (fun _ => none) rfl

/-- C8: a Script Loader failure on a cache-missing path is fully
contained in the adder's file branch: the path is appended to the error
report, no `load` notification and no onLoad hook is enqueued, nothing is
cached, the watcher registry and the pending callback queue are
untouched, and the crash flag is not raised — the watch/reconcile loop
keeps running. -/
theorem c8_loader_failure_isolated (L : Loader) (es : EState) (p : FsPath)
    (hmiss : lookupKey es.loaded p = none) (hfail : L p = none) :
    adderFile L es p = { es with errors := es.errors ++ [p] } ∧
    (adderFile L es p).notifs = es.notifs ∧
    (adderFile L es p).loaded = es.loaded ∧
    (adderFile L es p).watchers = es.watchers ∧
    (adderFile L es p).pending = es.pending ∧
    (adderFile L es p).crashed = es.crashed := by
  have h : adderFile L es p = { es with errors := es.errors ++ [p] } := by
    unfold adderFile
    rw [hmiss, hfail]
  exact ⟨h, by rw [h], by rw [h], by rw [h], by rw [h], by rw [h]⟩

/-- C8 witness: the adder on a failing loader at a concrete path out of
the fresh engine state only reports the error. -/
theorem c8_witness :
    lookupKey (mkInit [(["r"])]).loaded (["r", "a.js"]) = none ∧
    (fun _ : FsPath => (none : Option Artifact)) (["r", "a.js"]) = none ∧
    adderFile (fun _ => none) (mkInit [(["r"])]) (["r", "a.js"]) =
      { mkInit [(["r"])] with
        errors := (mkInit [(["r"])]).errors ++ [(["r", "a.js"])] } :=
  ⟨rfl, rfl,
    (c8_loader_failure_isolated (fun _ => none) (mkInit [(["r"])])
      (["r", "a.js"]) rfl rfl).1⟩

end JsRunDir
